import Mathlib

/-!
Verification of the Research_system workflow-orchestration engine.

This file gives a shallow embedding of the engine's core components and
proves (or refutes) the specification's claims about them:

* the plan tree store (`src/tools/plan_manager.py`),
* the plan-updater depth gate (`src/agents/plan_updater.py`),
* the blackboard coordination store (`src/tools/blackboard.py`),
* the structured-result extractor (`src/utils.py`),
* the research retry loop of the graph orchestrator (`src/orchestrator.py`).

Python dicts backing the blackboard are modelled with an explicit heap so
that reference sharing (shallow copies) is observable.  Python strings are
modelled as `String` where only equality matters and as `List Char` where
the extractor scans character by character.  JSON numbers are modelled as
integers (no floats), and string escaping covers the quote, backslash and
common control escapes; `\uXXXX` escapes are outside the model.  File
persistence (`_save_plan`, `_save_data`) and logging are not modelled.
-/

/-! ## Plan tree store — `src/tools/plan_manager.py`

A `PlanNode` bundles the scalar fields of the Pydantic model; the recursive
`children` list makes the tree a nested inductive type.  The `id` field is
generated externally (uuid4 in the source), so constructors here take it as
an argument. -/

structure PlanFields where
  id : String
  title : String
  description : String
  status : String
  experts_needed : List String
deriving DecidableEq, Repr

inductive PlanNode where
  | mk (fields : PlanFields) (children : List PlanNode)

def PlanNode.fields : PlanNode → PlanFields
  | .mk f _ => f

def PlanNode.children : PlanNode → List PlanNode
  | .mk _ cs => cs

/-! Size of a node (node count), used as a termination measure. -/
mutual
def PlanNode.size : PlanNode → Nat
  | .mk _ cs => 1 + PlanNode.sizeList cs
def PlanNode.sizeList : List PlanNode → Nat
  | [] => 0
  | c :: rest => PlanNode.size c + PlanNode.sizeList rest
end

/-! `PlanManager._find_node_by_id`: pre-order search (node first, then
children left to right) for a node with the given id. -/
mutual
def find_node_by_id : PlanNode → String → Option PlanNode
  | .mk f cs, nid =>
    if f.id = nid then some (.mk f cs) else find_node_by_id_list cs nid
def find_node_by_id_list : List PlanNode → String → Option PlanNode
  | [], _ => none
  | c :: rest, nid =>
    match find_node_by_id c nid with
    | some found => some found
    | none => find_node_by_id_list rest nid
end

/-! Whether some node of the tree carries the given id (specification-side
helper; agrees with `find_node_by_id` succeeding). -/
mutual
def containsId : PlanNode → String → Bool
  | .mk f cs, nid => f.id == nid || containsIdList cs nid
def containsIdList : List PlanNode → String → Bool
  | [], _ => false
  | c :: rest, nid => containsId c nid || containsIdList rest nid
end

/-! `PlanManager.update_node_status` (the part of it acting on the tree):
the source finds the node object by id and mutates its `status` field in
place, so functionally the first pre-order node with a matching id gets the
new status and everything else is untouched.  The Bool reports whether a
node was found. -/
mutual
def setStatusNode : PlanNode → String → String → PlanNode × Bool
  | .mk f cs, nid, ns =>
    if f.id = nid then (.mk { f with status := ns } cs, true)
    else
      let r := setStatusList cs nid ns
      (.mk f r.1, r.2)
def setStatusList : List PlanNode → String → String → List PlanNode × Bool
  | [], _, _ => ([], false)
  | c :: rest, nid, ns =>
    let rc := setStatusNode c nid ns
    if rc.2 then (rc.1 :: rest, true)
    else
      let rr := setStatusList rest nid ns
      (rc.1 :: rr.1, rr.2)
end

/-- `PlanManager.update_node_status`: returns False on a missing plan or
unknown id, True after updating (persistence is not modelled). -/
def update_node_status (plan : Option PlanNode) (node_id new_status : String) :
    Bool × Option PlanNode :=
  match plan with
  | none => (false, none)
  | some t =>
    let r := setStatusNode t node_id new_status
    (r.2, some r.1)

/-! `PlanManager.add_sub_node` (tree part): the source finds the parent node
object and appends the freshly constructed child to its `children` list, so
functionally the first pre-order node with the parent id gets the child
appended.  The Bool reports whether the parent was found. -/
mutual
def addChildNode : PlanNode → String → PlanNode → PlanNode × Bool
  | .mk f cs, pid, c =>
    if f.id = pid then (.mk f (cs ++ [c]), true)
    else
      let r := addChildList cs pid c
      (.mk f r.1, r.2)
def addChildList : List PlanNode → String → PlanNode → List PlanNode × Bool
  | [], _, _ => ([], false)
  | x :: rest, pid, c =>
    let rx := addChildNode x pid c
    if rx.2 then (rx.1 :: rest, true)
    else
      let rr := addChildList rest pid c
      (rx.1 :: rr.1, rr.2)
end

/-- `PlanManager.add_sub_node`: `new_node` is the `PlanNode(**new_node_data)`
the source constructs (its uuid comes from outside the model).  Returns the
created node when the parent was found, `none` otherwise, together with the
resulting plan. -/
def add_sub_node (plan : Option PlanNode) (parent_id : String) (new_node : PlanNode) :
    Option PlanNode × Option PlanNode :=
  match plan with
  | none => (none, none)
  | some t =>
    let r := addChildNode t parent_id new_node
    if r.2 then (some new_node, some r.1) else (none, some t)

/-- `PlanManager.create_plan`: a fresh root ("Research Plan", description
derived from the prompt, default status `pending`) over the given children.
The root's uuid is passed in from outside the model. -/
def create_plan (root_id prompt : String) (children : List PlanNode) : PlanNode :=
  .mk { id := root_id, title := "Research Plan",
        description := "Plan for: " ++ prompt,
        status := "pending", experts_needed := [] } children

/-! Pre-order listing of a tree's nodes (specification side, used to state
what the iterative DFS of the source computes). -/
mutual
def preorder : PlanNode → List PlanNode
  | .mk f cs => .mk f cs :: preorderList cs
def preorderList : List PlanNode → List PlanNode
  | [] => []
  | c :: rest => preorder c ++ preorderList rest
end

/-- Combined size of a DFS stack. -/
def stackSize (st : List PlanNode) : Nat := (st.map PlanNode.size).sum

theorem sizeList_eq_stackSize (cs : List PlanNode) :
    PlanNode.sizeList cs = stackSize cs := by
  induction cs with
  | nil => simp [PlanNode.sizeList, stackSize]
  | cons c rest ih => simp [PlanNode.sizeList, stackSize] at *; omega

theorem stackSize_append (a b : List PlanNode) :
    stackSize (a ++ b) = stackSize a + stackSize b := by
  simp [stackSize]

theorem dfs_stack_decreases (n : PlanNode) (rest : List PlanNode) :
    stackSize (n.children ++ rest) < stackSize (n :: rest) := by
  cases n with
  | mk f cs =>
    rw [stackSize_append]
    simp [PlanNode.children, stackSize, PlanNode.size, sizeList_eq_stackSize]

/-- The iterative stack loop of `PlanManager.get_next_pending_node`.  The
source pops from the end of a Python list and pushes children reversed; here
the head of the list is the top of the stack, which yields the same visit
order. -/
def dfsNextPending : List PlanNode → Option PlanNode
  | [] => none
  | n :: rest =>
    if n.fields.status = "pending" then some n
    else dfsNextPending (n.children ++ rest)
termination_by st => stackSize st
decreasing_by exact dfs_stack_decreases _ _

/-- `PlanManager.get_next_pending_node`. -/
def get_next_pending_node (plan : Option PlanNode) : Option PlanNode :=
  match plan with
  | none => none
  | some t => dfsNextPending [t]

/-! ## Plan updater depth gate — `src/agents/plan_updater.py`

`PlanUpdaterAgent.execute` is the only caller of `add_sub_node` in the
repository: the `addChild` operation of the specification is this agent's
depth-gated path.  The LLM approval decision and the uuid of the node a
proposal would create are external inputs, carried on the proposal. -/

/-- A topic proposal as the updater sees it: the three required keys, a flag
for the key-presence validation, the parsed LLM decision, and the id the
created node would receive. -/
structure Proposal where
  title : String
  summary : String
  justification : String
  has_required_keys : Bool
  approved : Bool
  new_id : String
deriving DecidableEq, Repr

/-- The `PlanNode(**new_node_data)` built for an approved proposal: fresh
id, proposal title and summary, empty expert list, default pending status,
no children. -/
def proposalNode (p : Proposal) : PlanNode :=
  .mk { id := p.new_id, title := p.title, description := p.summary,
        status := "pending", experts_needed := [] } []

/-! The inner `get_depth` helper of `PlanUpdaterAgent.execute`: walk from
the root, returning the depth of the first pre-order node with the given id
and -1 when the id is absent. -/
mutual
def get_depth (node_id : String) : PlanNode → Int → Int
  | .mk f cs, depth =>
    if f.id = node_id then depth else get_depth_list node_id cs (depth + 1)
def get_depth_list (node_id : String) : List PlanNode → Int → Int
  | [], _ => -1
  | c :: rest, depth =>
    let found := get_depth node_id c depth
    if found ≠ -1 then found else get_depth_list node_id rest depth
end

def MAX_PLAN_DEPTH : Int := 5

/-- `PlanUpdaterAgent.execute`, tree effect only: with no proposals or an
unknown parent it returns early; with the parent at depth ≥ `MAX_PLAN_DEPTH`
it skips all proposals; otherwise each proposal with the required keys and
an APPROVE decision is appended under the parent via `add_sub_node`. -/
def plan_updater_execute (plan : PlanNode) (proposals : List Proposal)
    (parent_node_id : String) : PlanNode :=
  if proposals.isEmpty then plan
  else
    match find_node_by_id plan parent_node_id with
    | none => plan
    | some _ =>
      let parent_depth := get_depth parent_node_id plan 0
      if parent_depth ≥ MAX_PLAN_DEPTH then plan
      else
        proposals.foldl
          (fun t p =>
            if ¬ p.has_required_keys then t
            else if p.approved then (addChildNode t parent_node_id (proposalNode p)).1
            else t)
          plan

/-! Each node of the tree paired with its depth below the root of the walk
(specification side, used to state the depth invariant). -/
mutual
def idDepths : PlanNode → Nat → List (String × Nat)
  | .mk f cs, d => (f.id, d) :: idDepthsList cs (d + 1)
def idDepthsList : List PlanNode → Nat → List (String × Nat)
  | [], _ => []
  | c :: rest, d => idDepths c d ++ idDepthsList rest d
end

/-! ## Basic lemmas about the plan tree operations -/

/-! Unknown ids leave `setStatusNode` untouched. -/
mutual
theorem setStatusNode_not_contains : ∀ (t : PlanNode) (nid ns : String),
    containsId t nid = false → setStatusNode t nid ns = (t, false)
  | .mk f cs, nid, ns, h => by
    simp only [containsId, Bool.or_eq_false_iff, beq_eq_false_iff_ne] at h
    simp only [setStatusNode, if_neg h.1]
    rw [setStatusList_not_contains cs nid ns h.2]
theorem setStatusList_not_contains : ∀ (cs : List PlanNode) (nid ns : String),
    containsIdList cs nid = false → setStatusList cs nid ns = (cs, false)
  | [], _, _, _ => rfl
  | c :: rest, nid, ns, h => by
    simp only [containsIdList, Bool.or_eq_false_iff] at h
    simp only [setStatusList]
    rw [setStatusNode_not_contains c nid ns h.1,
        setStatusList_not_contains rest nid ns h.2]
    simp
end

/-! Unknown parent ids leave `addChildNode` untouched. -/
mutual
theorem addChildNode_not_contains : ∀ (t : PlanNode) (pid : String) (c : PlanNode),
    containsId t pid = false → addChildNode t pid c = (t, false)
  | .mk f cs, pid, c, h => by
    simp only [containsId, Bool.or_eq_false_iff, beq_eq_false_iff_ne] at h
    simp only [addChildNode, if_neg h.1]
    rw [addChildList_not_contains cs pid c h.2]
theorem addChildList_not_contains : ∀ (cs : List PlanNode) (pid : String) (c : PlanNode),
    containsIdList cs pid = false → addChildList cs pid c = (cs, false)
  | [], _, _, _ => rfl
  | x :: rest, pid, c, h => by
    simp only [containsIdList, Bool.or_eq_false_iff] at h
    simp only [addChildList]
    rw [addChildNode_not_contains x pid c h.1,
        addChildList_not_contains rest pid c h.2]
    simp
end

/-! The success flags of the two mutating operations coincide with id
membership. -/
mutual
theorem addChildNode_flag : ∀ (t : PlanNode) (pid : String) (c : PlanNode),
    (addChildNode t pid c).2 = containsId t pid
  | .mk f cs, pid, c => by
    simp only [addChildNode, containsId]
    by_cases h : f.id = pid
    · simp [h]
    · simp only [if_neg h]
      rw [addChildList_flag cs pid c]
      simp [beq_iff_eq, h]
theorem addChildList_flag : ∀ (cs : List PlanNode) (pid : String) (c : PlanNode),
    (addChildList cs pid c).2 = containsIdList cs pid
  | [], _, _ => rfl
  | x :: rest, pid, c => by
    simp only [addChildList, containsIdList]
    by_cases h : containsId x pid
    · have := addChildNode_flag x pid c
      simp [this, h]
    · have hf := addChildNode_flag x pid c
      simp only [Bool.not_eq_true] at h
      simp [hf, h, addChildList_flag rest pid c]
end

mutual
theorem setStatusNode_flag : ∀ (t : PlanNode) (nid ns : String),
    (setStatusNode t nid ns).2 = containsId t nid
  | .mk f cs, nid, ns => by
    simp only [setStatusNode, containsId]
    by_cases h : f.id = nid
    · simp [h]
    · simp only [if_neg h]
      rw [setStatusList_flag cs nid ns]
      simp [beq_iff_eq, h]
theorem setStatusList_flag : ∀ (cs : List PlanNode) (nid ns : String),
    (setStatusList cs nid ns).2 = containsIdList cs nid
  | [], _, _ => rfl
  | c :: rest, nid, ns => by
    simp only [setStatusList, containsIdList]
    by_cases h : containsId c nid
    · have := setStatusNode_flag c nid ns
      simp [this, h]
    · have hf := setStatusNode_flag c nid ns
      simp only [Bool.not_eq_true] at h
      simp [hf, h, setStatusList_flag rest nid ns]
end

/-- Projection of a node to its (id, status) pair. -/
def idStatus (n : PlanNode) : String × String := (n.fields.id, n.fields.status)

/-- Listing of (id, status) pairs of a tree in pre-order (specification
side, used to state what `update_node_status` does to the statuses). -/
def statusList (t : PlanNode) : List (String × String) := (preorder t).map idStatus

/-- Replacement of the status of the first entry with a matching id in a
flat (id, status) list — the list-level specification `update_node_status`
is proved to refine. -/
def setFirstStatus : List (String × String) → String → String → List (String × String)
  | [], _, _ => []
  | (i, s) :: rest, nid, ns =>
    if i = nid then (i, ns) :: rest else (i, s) :: setFirstStatus rest nid ns

theorem preorder_mk (f : PlanFields) (cs : List PlanNode) :
    preorder (.mk f cs) = .mk f cs :: preorderList cs := by
  rw [preorder]

theorem preorderList_cons (c : PlanNode) (rest : List PlanNode) :
    preorderList (c :: rest) = preorder c ++ preorderList rest := by
  rw [preorderList]

/-! Membership of an id among a tree's entries agrees with `containsId`. -/
mutual
theorem containsId_any : ∀ (t : PlanNode) (nid : String),
    containsId t nid = ((preorder t).map idStatus).any (fun p => p.1 == nid)
  | .mk f cs, nid => by
    rw [containsId, preorder_mk]
    simp only [List.map_cons, List.any_cons, idStatus, PlanNode.fields]
    rw [containsIdList_any cs nid]
theorem containsIdList_any : ∀ (cs : List PlanNode) (nid : String),
    containsIdList cs nid = ((preorderList cs).map idStatus).any (fun p => p.1 == nid)
  | [], _ => by rw [containsIdList, preorderList]; rfl
  | c :: rest, nid => by
    rw [containsIdList, preorderList_cons]
    simp only [List.map_append, List.any_append]
    rw [containsId_any c nid, containsIdList_any rest nid]
end

theorem setFirstStatus_append (xs ys : List (String × String)) (nid ns : String) :
    setFirstStatus (xs ++ ys) nid ns =
      if xs.any (fun p => p.1 == nid) then setFirstStatus xs nid ns ++ ys
      else xs ++ setFirstStatus ys nid ns := by
  induction xs with
  | nil => simp [setFirstStatus]
  | cons x rest ih =>
    obtain ⟨i, s⟩ := x
    by_cases h : i = nid
    · simp [setFirstStatus, h]
    · simp only [List.cons_append, setFirstStatus, if_neg h, List.any_cons,
        beq_eq_false_iff_ne.mpr h, Bool.false_or, List.append_eq]
      rw [ih]
      by_cases h2 : rest.any (fun p => p.1 == nid) <;>
        simp [h2, setFirstStatus, if_neg h]

/-! Characterization of `setStatusNode`: pre-order (id, status) entries of
the result are those of the input with the first matching entry's status
replaced; everything else (ids, order, shape) is untouched. -/
mutual
theorem setStatusNode_spec : ∀ (t : PlanNode) (nid ns : String),
    (preorder (setStatusNode t nid ns).1).map idStatus =
      setFirstStatus ((preorder t).map idStatus) nid ns
  | .mk f cs, nid, ns => by
    by_cases h : f.id = nid
    · simp only [setStatusNode, if_pos h, preorder_mk, List.map_cons, idStatus,
        PlanNode.fields, setFirstStatus, if_pos h]
    · simp only [setStatusNode, if_neg h, preorder_mk, List.map_cons, idStatus,
        PlanNode.fields, setFirstStatus, if_neg h]
      rw [setStatusList_spec cs nid ns]
theorem setStatusList_spec : ∀ (cs : List PlanNode) (nid ns : String),
    (preorderList (setStatusList cs nid ns).1).map idStatus =
      setFirstStatus ((preorderList cs).map idStatus) nid ns
  | [], _, _ => by rw [setStatusList, preorderList]; rfl
  | c :: rest, nid, ns => by
    simp only [setStatusList]
    by_cases h : containsId c nid
    · have hflag : (setStatusNode c nid ns).2 = true := by
        rw [setStatusNode_flag]; exact h
      simp [hflag, preorderList_cons, setFirstStatus_append, ← containsId_any, h,
        setStatusNode_spec c nid ns]
    · rw [Bool.not_eq_true] at h
      have hunch : setStatusNode c nid ns = (c, false) :=
        setStatusNode_not_contains c nid ns h
      simp [hunch, preorderList_cons, setFirstStatus_append, ← containsId_any, h,
        setStatusList_spec rest nid ns]
end

theorem preorderList_flatMap (cs : List PlanNode) :
    preorderList cs = cs.flatMap preorder := by
  induction cs with
  | nil => rw [preorderList]; rfl
  | cons c rest ih => rw [preorderList_cons, ih]; simp

/-- The iterative stack DFS equals a pre-order search: popping a stack and
pushing children left to right visits exactly the concatenated pre-order
listings of the stacked subtrees. -/
theorem dfsNextPending_eq_find (st : List PlanNode) :
    dfsNextPending st =
      (st.flatMap preorder).find? (fun n => n.fields.status == "pending") := by
  induction st using dfsNextPending.induct with
  | case1 => simp [dfsNextPending]
  | case2 n rest hp =>
    rw [dfsNextPending, if_pos hp]
    cases n with
    | mk f cs =>
      rw [List.flatMap_cons, preorder_mk, List.cons_append,
        List.find?_cons_of_pos _ (by simpa [PlanNode.fields] using hp)]
  | case3 n rest hp ih =>
    rw [dfsNextPending, if_neg hp]
    cases n with
    | mk f cs =>
      rw [List.flatMap_cons, preorder_mk, List.cons_append,
        List.find?_cons_of_neg _ (by simpa [PlanNode.fields] using hp)]
      simp only [PlanNode.children] at ih ⊢
      rw [ih, List.flatMap_append, preorderList_flatMap]

/-! ## Claims about the plan tree store -/

/-- C5: for every plan tree, `get_next_pending_node` is a deterministic
pre-order depth-first search with children visited in insertion order: it
returns the first node in pre-order whose status is `pending`, and returns
`none` if and only if no node of the tree has status `pending`. -/
theorem claim_C5_next_pending_preorder (t : PlanNode) :
    get_next_pending_node (some t) =
      (preorder t).find? (fun n => n.fields.status == "pending")
    ∧ (get_next_pending_node (some t) = none ↔
        ∀ n ∈ preorder t, n.fields.status ≠ "pending") := by
  have h : get_next_pending_node (some t) =
      (preorder t).find? (fun n => n.fields.status == "pending") := by
    show dfsNextPending [t] = _
    rw [dfsNextPending_eq_find]
    simp
  refine ⟨h, ?_⟩
  rw [h, List.find?_eq_none]
  simp

/-- C10: a plan freshly built by `create_plan` has a root with the default
status `pending`, so the first `get_next_pending_node` call returns the
root itself, before any of the initial children. -/
theorem claim_C10_fresh_root_pending (root_id prompt : String)
    (children : List PlanNode) :
    (create_plan root_id prompt children).fields.status = "pending"
    ∧ get_next_pending_node (some (create_plan root_id prompt children)) =
        some (create_plan root_id prompt children) := by
  constructor
  · rfl
  · show dfsNextPending [create_plan root_id prompt children] = _
    rw [dfsNextPending]
    simp [create_plan, PlanNode.fields]

/-- C9: operations on an id that is nowhere in the tree are non-fatal
no-ops: `update_node_status` returns False and leaves the tree unchanged,
and `add_sub_node` returns no created node and leaves the tree unchanged. -/
theorem claim_C9_unknown_id_noop (t : PlanNode) (nid ns : String) (c : PlanNode)
    (h : containsId t nid = false) :
    update_node_status (some t) nid ns = (false, some t)
    ∧ add_sub_node (some t) nid c = (none, some t) := by
  constructor
  · show (let r := setStatusNode t nid ns; (r.2, some r.1)) = _
    rw [setStatusNode_not_contains t nid ns h]
  · show (let r := addChildNode t nid c;
      if r.2 then (some c, some r.1) else (none, some t)) = _
    rw [addChildNode_not_contains t nid c h]
    simp

/-- Concrete witness instance for C9. -/
theorem claim_C9_witness :
    containsId (.mk ⟨"root", "Research Plan", "Plan for: demo", "pending", []⟩ [])
        "missing-id" = false
    ∧ (update_node_status
          (some (.mk ⟨"root", "Research Plan", "Plan for: demo", "pending", []⟩ []))
          "missing-id" "completed" =
        (false, some (.mk ⟨"root", "Research Plan", "Plan for: demo", "pending", []⟩ []))
      ∧ add_sub_node
          (some (.mk ⟨"root", "Research Plan", "Plan for: demo", "pending", []⟩ []))
          "missing-id" (.mk ⟨"c1", "T", "D", "pending", []⟩ []) =
        (none, some (.mk ⟨"root", "Research Plan", "Plan for: demo", "pending", []⟩ []))) :=
  ⟨by rfl,
   claim_C9_unknown_id_noop
     (.mk ⟨"root", "Research Plan", "Plan for: demo", "pending", []⟩ [])
     "missing-id" "completed"
     (.mk ⟨"c1", "T", "D", "pending", []⟩ [])
     (by rfl)⟩

/-- C4 counterexample: `update_node_status` applies a requested back-transition.
On a tree whose only node is `completed`, requesting status `pending` succeeds
and moves the node back to `pending`, so the store does not restrict
transitions to pending → in-progress → completed. -/
theorem claim_C4_counterexample :
    (PlanNode.mk ⟨"n1", "T", "D", "completed", []⟩ []).fields.status = "completed"
    ∧ update_node_status (some (.mk ⟨"n1", "T", "D", "completed", []⟩ []))
        "n1" "pending" =
      (true, some (.mk ⟨"n1", "T", "D", "pending", []⟩ [])) := by
  constructor <;> rfl

/-- C4 (amended): `update_node_status` performs an unconditional status
write with no transition guard: the first pre-order node carrying the
requested id gets exactly the requested status and every other node keeps
its (id, status) pair; the reported Bool is id membership.  The forward-only
pending → in-progress → completed discipline is upheld only by the engine's
call sites, not by the store. -/
theorem claim_C4_set_status_unconditional (t : PlanNode) (nid ns : String) :
    update_node_status (some t) nid ns =
      (containsId t nid, some (setStatusNode t nid ns).1)
    ∧ statusList (setStatusNode t nid ns).1 =
        setFirstStatus (statusList t) nid ns := by
  constructor
  · show ((setStatusNode t nid ns).2, some (setStatusNode t nid ns).1) = _
    rw [setStatusNode_flag]
  · exact setStatusNode_spec t nid ns

/-! ## Lemmas about the depth gate -/

/-! Success of `find_node_by_id` agrees with `containsId`. -/
mutual
theorem find_isSome : ∀ (t : PlanNode) (nid : String),
    (find_node_by_id t nid).isSome = containsId t nid
  | .mk f cs, nid => by
    rw [find_node_by_id, containsId]
    by_cases h : f.id = nid
    · simp [h]
    · simp only [if_neg h, beq_eq_false_iff_ne.mpr h, Bool.false_or]
      exact find_list_isSome cs nid
theorem find_list_isSome : ∀ (cs : List PlanNode) (nid : String),
    (find_node_by_id_list cs nid).isSome = containsIdList cs nid
  | [], _ => rfl
  | c :: rest, nid => by
    rw [find_node_by_id_list, containsIdList]
    cases hf : find_node_by_id c nid with
    | some found =>
      have := find_isSome c nid
      rw [hf] at this
      simp [← this]
    | none =>
      have := find_isSome c nid
      rw [hf] at this
      simp only [← this, Option.isSome_none, Bool.false_or]
      exact find_list_isSome rest nid
end

theorem idDepthsList_append (xs ys : List PlanNode) (d : Nat) :
    idDepthsList (xs ++ ys) d = idDepthsList xs d ++ idDepthsList ys d := by
  induction xs with
  | nil => rw [idDepthsList]; rfl
  | cons x rest ih =>
    rw [List.cons_append, idDepthsList, idDepthsList]
    rw [ih, List.append_assoc]

/-! Specification of `get_depth`: it returns -1 exactly on absent ids, and
otherwise the depth (relative to the accumulator) at which the first
pre-order occurrence of the id sits. -/
mutual
theorem get_depth_spec : ∀ (nid : String) (t : PlanNode) (d : Nat),
    (containsId t nid = false → get_depth nid t (d : Int) = -1)
    ∧ (containsId t nid = true →
        ∃ n : Nat, (nid, n) ∈ idDepths t d ∧ get_depth nid t (d : Int) = (n : Int))
  | nid, .mk f cs, d => by
    rw [containsId, get_depth, idDepths]
    by_cases h : f.id = nid
    · constructor
      · intro hc; simp [h] at hc
      · intro _
        refine ⟨d, ?_, by simp [h]⟩
        simp [h]
    · have hcast : (d : Int) + 1 = ((d + 1 : Nat) : Int) := by push_cast; ring
      simp only [beq_eq_false_iff_ne.mpr h, Bool.false_or, if_neg h, hcast]
      constructor
      · intro hc
        exact (get_depth_list_spec nid cs (d + 1)).1 hc
      · intro hc
        obtain ⟨n, hm, he⟩ := (get_depth_list_spec nid cs (d + 1)).2 hc
        exact ⟨n, List.mem_cons_of_mem _ hm, he⟩
theorem get_depth_list_spec : ∀ (nid : String) (cs : List PlanNode) (d : Nat),
    (containsIdList cs nid = false → get_depth_list nid cs (d : Int) = -1)
    ∧ (containsIdList cs nid = true →
        ∃ n : Nat, (nid, n) ∈ idDepthsList cs d ∧ get_depth_list nid cs (d : Int) = (n : Int))
  | nid, [], d => by
    rw [containsIdList, get_depth_list, idDepthsList]
    exact ⟨fun _ => rfl, fun hc => by simp at hc⟩
  | nid, c :: rest, d => by
    simp only [containsIdList, get_depth_list, idDepthsList]
    by_cases h : containsId c nid
    · obtain ⟨n, hm, he⟩ := (get_depth_spec nid c d).2 h
      have hne : get_depth nid c (d : Int) ≠ -1 := by rw [he]; omega
      constructor
      · intro hc; rw [h] at hc; simp at hc
      · intro _
        refine ⟨n, List.mem_append_left _ hm, ?_⟩
        rw [if_pos hne, he]
    · rw [Bool.not_eq_true] at h
      have hz := (get_depth_spec nid c d).1 h
      rw [hz, if_neg (by simp), h]
      simp only [Bool.false_or]
      constructor
      · exact (get_depth_list_spec nid rest d).1
      · intro hc
        obtain ⟨n, hm, he⟩ := (get_depth_list_spec nid rest d).2 hc
        exact ⟨n, List.mem_append_right _ hm, he⟩
end

/-! Appending a child under the first pre-order occurrence of `pid` does not
change the depth `get_depth` computes for `pid` (the first occurrence stays
where it was). -/
mutual
theorem get_depth_addChild : ∀ (pid : String) (t : PlanNode) (c : PlanNode) (d : Int),
    get_depth pid (addChildNode t pid c).1 d = get_depth pid t d
  | pid, .mk f cs, c, d => by
    by_cases h : f.id = pid
    · simp only [addChildNode, if_pos h, get_depth, if_pos h]
    · simp only [addChildNode, if_neg h, get_depth, if_neg h]
      exact get_depth_list_addChild pid cs c (d + 1)
theorem get_depth_list_addChild : ∀ (pid : String) (cs : List PlanNode) (c : PlanNode) (d : Int),
    get_depth_list pid (addChildList cs pid c).1 d = get_depth_list pid cs d
  | pid, [], c, d => rfl
  | pid, x :: rest, c, d => by
    simp only [addChildList]
    by_cases h : (addChildNode x pid c).2
    · simp only [h, if_pos rfl, get_depth_list, get_depth_addChild pid x c d]
    · rw [Bool.not_eq_true] at h
      have hx : addChildNode x pid c = (x, false) := by
        rw [addChildNode_flag] at h
        exact addChildNode_not_contains x pid c h
      simp only [hx, get_depth_list]
      rw [get_depth_list_addChild pid rest c d]
end

/-! Appending a child `c` under the first pre-order occurrence of `pid`
keeps every (id, depth) entry within a bound, provided the entries of `c`
rooted one level below the occurrence are within the bound. -/
mutual
theorem addChild_depth_bound : ∀ (t : PlanNode) (pid : String) (c : PlanNode) (d B : Nat),
    (∀ e ∈ idDepths t d, e.2 ≤ B) →
    (∀ n : Nat, get_depth pid t (d : Int) = (n : Int) →
      ∀ e ∈ idDepths c (n + 1), e.2 ≤ B) →
    ∀ e ∈ idDepths (addChildNode t pid c).1 d, e.2 ≤ B
  | .mk f cs, pid, c, d, B => by
    intro h1 h2
    by_cases h : f.id = pid
    · simp only [addChildNode, if_pos h, idDepths, idDepthsList_append]
      intro e he
      rcases List.mem_cons.mp he with rfl | he2
      · exact h1 _ (by rw [idDepths]; exact List.mem_cons_self _ _)
      · rcases List.mem_append.mp he2 with hl | hr
        · exact h1 _ (by rw [idDepths]; exact List.mem_cons_of_mem _ hl)
        · have hd : get_depth pid (.mk f cs) (d : Int) = (d : Int) := by
            rw [get_depth, if_pos h]
          have := h2 d hd
          simp only [idDepthsList, List.append_nil] at hr
          exact this _ hr
    · simp only [addChildNode, if_neg h, idDepths]
      intro e he
      rcases List.mem_cons.mp he with rfl | he2
      · exact h1 _ (by rw [idDepths]; exact List.mem_cons_self _ _)
      · refine addChildList_depth_bound cs pid c (d + 1) B ?_ ?_ e he2
        · intro e' he'
          exact h1 _ (by rw [idDepths]; exact List.mem_cons_of_mem _ he')
        · intro n hn
          apply h2 n
          rw [get_depth, if_neg h]
          rw [← hn]
          norm_cast
theorem addChildList_depth_bound : ∀ (cs : List PlanNode) (pid : String) (c : PlanNode) (d B : Nat),
    (∀ e ∈ idDepthsList cs d, e.2 ≤ B) →
    (∀ n : Nat, get_depth_list pid cs (d : Int) = (n : Int) →
      ∀ e ∈ idDepths c (n + 1), e.2 ≤ B) →
    ∀ e ∈ idDepthsList (addChildList cs pid c).1 d, e.2 ≤ B
  | [], pid, c, d, B => by
    intro h1 _ e he
    exact h1 e he
  | x :: rest, pid, c, d, B => by
    intro h1 h2
    simp only [addChildList]
    by_cases h : containsId x pid
    · have hflag : (addChildNode x pid c).2 = true := by
        rw [addChildNode_flag]; exact h
      simp only [hflag, if_pos rfl, idDepthsList]
      intro e he
      rcases List.mem_append.mp he with hl | hr
      · refine addChild_depth_bound x pid c d B ?_ ?_ e hl
        · intro e' he'
          exact h1 _ (by rw [idDepthsList]; exact List.mem_append_left _ he')
        · intro n hn
          apply h2 n
          rw [get_depth_list, if_pos (by rw [hn]; omega), hn]
      · exact h1 _ (by rw [idDepthsList]; exact List.mem_append_right _ hr)
    · rw [Bool.not_eq_true] at h
      have hx : addChildNode x pid c = (x, false) :=
        addChildNode_not_contains x pid c h
      simp only [hx, idDepthsList]
      intro e he
      rcases List.mem_append.mp he with hl | hr
      · exact h1 _ (by rw [idDepthsList]; exact List.mem_append_left _ hl)
      · refine addChildList_depth_bound rest pid c d B ?_ ?_ e hr
        · intro e' he'
          exact h1 _ (by rw [idDepthsList]; exact List.mem_append_right _ he')
        · intro n hn
          apply h2 n
          have hz := (get_depth_spec pid x d).1 h
          rw [get_depth_list, hz, if_neg (by simp), hn]
end

/-- Folding the updater's proposal loop keeps every (id, depth) entry within
a bound `B`, provided the parent sits at computed depth `n` with `n + 1 ≤ B`:
each approved proposal adds one childless node one level below the parent. -/
theorem updater_fold_bound (ps : List Proposal) (pid : String) :
    ∀ (t : PlanNode) (n B : Nat),
      get_depth pid t 0 = (n : Int) → n + 1 ≤ B →
      (∀ e ∈ idDepths t 0, e.2 ≤ B) →
      ∀ e ∈ idDepths (ps.foldl
          (fun t p =>
            if ¬ p.has_required_keys then t
            else if p.approved then (addChildNode t pid (proposalNode p)).1
            else t) t) 0, e.2 ≤ B := by
  induction ps with
  | nil =>
    intro t n B _ _ h3
    simpa using h3
  | cons p rest ih =>
    intro t n B h1 h2 h3
    simp only [List.foldl_cons]
    by_cases hk : p.has_required_keys
    · by_cases ha : p.approved
      · have hstep : (if ¬ p.has_required_keys then t
            else if p.approved then (addChildNode t pid (proposalNode p)).1 else t)
            = (addChildNode t pid (proposalNode p)).1 := by simp [hk, ha]
        rw [hstep]
        apply ih (addChildNode t pid (proposalNode p)).1 n B
        · rw [get_depth_addChild, h1]
        · exact h2
        · have hz : ((0 : Nat) : Int) = (0 : Int) := by norm_cast
          apply addChild_depth_bound t pid (proposalNode p) 0 B h3
          intro m hm
          rw [hz, h1] at hm
          have hmn : m = n := by exact_mod_cast hm.symm
          subst hmn
          intro e he
          simp only [proposalNode, idDepths, idDepthsList] at he
          rcases List.mem_cons.mp he with rfl | habs
          · exact h2
          · simp at habs
      · have hstep : (if ¬ p.has_required_keys then t
            else if p.approved then (addChildNode t pid (proposalNode p)).1 else t)
            = t := by simp [hk, ha]
        rw [hstep]
        exact ih t n B h1 h2 h3
    · have hstep : (if ¬ p.has_required_keys then t
          else if p.approved then (addChildNode t pid (proposalNode p)).1 else t)
          = t := by simp [hk]
      rw [hstep]
      exact ih t n B h1 h2 h3

/-- C2: through the system's add-child pathway (`PlanUpdaterAgent.execute`,
the only caller of `add_sub_node`), a parent whose computed depth from the
root is ≥ MAX_PLAN_DEPTH never receives a child: the call is a no-op on the
tree.  Consequently the depth invariant holds: if every node of the tree
sits at depth ≤ MAX_PLAN_DEPTH + 1, the same is true after any execute
call, so no node ever exists at depth greater than MAX_PLAN_DEPTH + 1. -/
theorem claim_C2_depth_gate (t : PlanNode) (proposals : List Proposal) (pid : String) :
    (get_depth pid t 0 ≥ MAX_PLAN_DEPTH → plan_updater_execute t proposals pid = t)
    ∧ ((∀ e ∈ idDepths t 0, (e.2 : Int) ≤ MAX_PLAN_DEPTH + 1) →
        ∀ e ∈ idDepths (plan_updater_execute t proposals pid) 0,
          (e.2 : Int) ≤ MAX_PLAN_DEPTH + 1) := by
  constructor
  · intro hge
    rw [plan_updater_execute]
    by_cases hp : proposals.isEmpty
    · rw [if_pos hp]
    · rw [if_neg hp]
      cases hf : find_node_by_id t pid with
      | none => rfl
      | some _ => rw [if_pos hge]
  · intro hb
    rw [plan_updater_execute]
    by_cases hp : proposals.isEmpty
    · rw [if_pos hp]; exact hb
    · rw [if_neg hp]
      cases hf : find_node_by_id t pid with
      | none => exact hb
      | some q =>
        by_cases hge : get_depth pid t 0 ≥ MAX_PLAN_DEPTH
        · rw [if_pos hge]; exact hb
        · rw [if_neg hge]
          have hc : containsId t pid = true := by
            rw [← find_isSome, hf]; rfl
          obtain ⟨n, hm, he⟩ := (get_depth_spec pid t 0).2 hc
          have hz : ((0 : Nat) : Int) = (0 : Int) := by norm_cast
          rw [hz] at he
          have hn4 : n + 1 ≤ 6 := by
            rw [he] at hge
            simp only [MAX_PLAN_DEPTH] at hge
            omega
          have hb' : ∀ e ∈ idDepths t 0, e.2 ≤ 6 := by
            intro e hee
            have := hb e hee
            simp only [MAX_PLAN_DEPTH] at this
            omega
          intro e hee
          have := updater_fold_bound proposals pid t n 6 he hn4 hb' e hee
          simp only [MAX_PLAN_DEPTH]
          omega

/-- Concrete witness instance for C2: a six-node chain whose deepest node
sits at depth 5 = MAX_PLAN_DEPTH; adding a proposal under it is a no-op. -/
theorem claim_C2_witness :
    (get_depth "n5"
        (.mk ⟨"n0", "t0", "d0", "pending", []⟩
          [.mk ⟨"n1", "t1", "d1", "pending", []⟩
            [.mk ⟨"n2", "t2", "d2", "pending", []⟩
              [.mk ⟨"n3", "t3", "d3", "pending", []⟩
                [.mk ⟨"n4", "t4", "d4", "pending", []⟩
                  [.mk ⟨"n5", "t5", "d5", "pending", []⟩ []]]]]]) 0 ≥ MAX_PLAN_DEPTH)
    ∧ plan_updater_execute
        (.mk ⟨"n0", "t0", "d0", "pending", []⟩
          [.mk ⟨"n1", "t1", "d1", "pending", []⟩
            [.mk ⟨"n2", "t2", "d2", "pending", []⟩
              [.mk ⟨"n3", "t3", "d3", "pending", []⟩
                [.mk ⟨"n4", "t4", "d4", "pending", []⟩
                  [.mk ⟨"n5", "t5", "d5", "pending", []⟩ []]]]]])
        [⟨"T", "S", "J", true, true, "n6"⟩] "n5" =
      (.mk ⟨"n0", "t0", "d0", "pending", []⟩
          [.mk ⟨"n1", "t1", "d1", "pending", []⟩
            [.mk ⟨"n2", "t2", "d2", "pending", []⟩
              [.mk ⟨"n3", "t3", "d3", "pending", []⟩
                [.mk ⟨"n4", "t4", "d4", "pending", []⟩
                  [.mk ⟨"n5", "t5", "d5", "pending", []⟩ []]]]]]) :=
  ⟨by decide,
   (claim_C2_depth_gate
      (.mk ⟨"n0", "t0", "d0", "pending", []⟩
        [.mk ⟨"n1", "t1", "d1", "pending", []⟩
          [.mk ⟨"n2", "t2", "d2", "pending", []⟩
            [.mk ⟨"n3", "t3", "d3", "pending", []⟩
              [.mk ⟨"n4", "t4", "d4", "pending", []⟩
                [.mk ⟨"n5", "t5", "d5", "pending", []⟩ []]]]]])
      [⟨"T", "S", "J", true, true, "n6"⟩] "n5").1 (by decide)⟩

/-! ## Blackboard — `src/tools/blackboard.py`

Python dicts are mutable objects shared by reference, so the store is
modelled with an explicit heap of dict objects: `_data` maps each section
name to the address of its dict, and values inside a section are either
immutable scalars or references to further dict objects.  `get_section`
returns `self._data.get(section, {}).copy()` — a shallow copy — modelled as
allocating a new object with the same entries and returning its address.
The lock only serializes operations and is invisible in this sequential
model; file persistence is not modelled. -/

abbrev Addr := Nat

/-- A value stored on the blackboard: an immutable scalar (a str / number /
already-serialized payload) or a reference to a mutable dict object. -/
inductive PyVal where
  | prim (s : String)
  | ref (a : Addr)
deriving DecidableEq, Repr

/-- A Python dict object: insertion-ordered key/value entries. -/
abbrev PyObj := List (String × PyVal)

/-- Dict read `d.get(k)`. -/
def dget {κ α : Type} [DecidableEq κ] : List (κ × α) → κ → Option α
  | [], _ => none
  | e :: rest, k => if e.1 = k then some e.2 else dget rest k

/-- Dict assignment `d[k] = v`: overwrite in place if the key exists,
append otherwise. -/
def dset {κ α : Type} [DecidableEq κ] (o : List (κ × α)) (k : κ) (v : α) :
    List (κ × α) :=
  if (dget o k).isSome then
    o.map (fun e => if e.1 = k then (k, v) else e)
  else o ++ [(k, v)]

/-- The heap of dict objects; `next` is the next fresh address. -/
structure Heap where
  objs : List (Addr × PyObj)
  next : Addr
deriving DecidableEq, Repr

def Heap.lookup (h : Heap) (a : Addr) : Option PyObj := dget h.objs a

/-- In-place mutation of the object at address `a`: `d[k] = v`. -/
def Heap.write (h : Heap) (a : Addr) (k : String) (v : PyVal) : Heap :=
  { h with objs := h.objs.map (fun e => if e.1 = a then (a, dset e.2 k v) else e) }

/-- Allocation of a fresh dict object. -/
def Heap.alloc (h : Heap) (o : PyObj) : Addr × Heap :=
  (h.next, { objs := (h.next, o) :: h.objs, next := h.next + 1 })

/-- The blackboard's `_data` dict: section name ↦ address of that section's
dict object. -/
structure Blackboard where
  sections : List (String × Addr)
deriving DecidableEq, Repr

/-- `Blackboard.get`: `self._data.get(section, {}).get(key)`. -/
def Blackboard.get (bb : Blackboard) (h : Heap) (sec key : String) : Option PyVal :=
  match dget bb.sections sec with
  | none => none
  | some a =>
    match h.lookup a with
    | none => none
    | some o => dget o key

/-- `Blackboard.get_section`: `self._data.get(section, {}).copy()` — a new
dict object carrying the same entries (references shared), returned to the
caller as a fresh address. -/
def get_section (bb : Blackboard) (h : Heap) (sec : String) : Addr × Heap :=
  let o := match dget bb.sections sec with
    | none => []
    | some a => (h.lookup a).getD []
  h.alloc o

/-- Read through a chain of nested dict references starting from a value:
the caller-visible deep content of stored data. -/
def readPath (h : Heap) : PyVal → List String → Option PyVal
  | v, [] => some v
  | .prim _, _ :: _ => none
  | .ref a, k :: ks =>
    match h.lookup a with
    | none => none
    | some o =>
      match dget o k with
      | none => none
      | some v' => readPath h v' ks

theorem Heap.lookup_alloc_ne (h : Heap) (o : PyObj) (a : Addr) (hne : a ≠ h.next) :
    (h.alloc o).2.lookup a = h.lookup a := by
  simp only [Heap.alloc, Heap.lookup, dget]
  rw [if_neg (fun hc => hne hc.symm)]

theorem Heap.lookup_write_ne (h : Heap) (b : Addr) (k : String) (v : PyVal)
    (a : Addr) (hne : a ≠ b) : (h.write b k v).lookup a = h.lookup a := by
  simp only [Heap.write, Heap.lookup]
  induction h.objs with
  | nil => rfl
  | cons e rest ih =>
    simp only [List.map_cons]
    by_cases hb : e.1 = b
    · rw [if_pos hb]
      simp only [dget]
      rw [if_neg (fun hc : b = a => hne hc.symm), if_neg (fun hc : e.1 = a => hne (hc ▸ hb))]
      exact ih
    · rw [if_neg hb]
      simp only [dget]
      by_cases ha : e.1 = a
      · rw [if_pos ha, if_pos ha]
      · rw [if_neg ha, if_neg ha]
        exact ih

theorem dget_mem {κ α : Type} [DecidableEq κ] (l : List (κ × α)) (k : κ) (v : α)
    (h : dget l k = some v) : (k, v) ∈ l := by
  induction l with
  | nil => simp [dget] at h
  | cons e rest ih =>
    rw [dget] at h
    by_cases he : e.1 = k
    · rw [if_pos he] at h
      injection h with h2
      subst h2
      cases e with
      | mk k1 v1 =>
        simp only at he
        subst he
        exact List.mem_cons_self _ _
    · rw [if_neg he] at h
      exact List.mem_cons_of_mem _ (ih h)

theorem get_section_lookup_ne (bb : Blackboard) (h : Heap) (sec : String) (a : Addr)
    (hne : a ≠ h.next) : (get_section bb h sec).2.lookup a = h.lookup a := by
  simp only [get_section]
  exact Heap.lookup_alloc_ne h _ a hne

/-- The deep content stored under a section and key, read through nested
references: the observable internal state of the blackboard. -/
def deep_get (bb : Blackboard) (h : Heap) (sec key : String)
    (path : List String) : Option PyVal :=
  match Blackboard.get bb h sec key with
  | none => none
  | some v => readPath h v path

/-- C8 counterexample: the copy `get_section` returns is shallow.  On a
blackboard whose section "s" maps "k" to a nested dict `{"x": "1"}`, the
returned copy shares the nested dict's reference; mutating that nested dict
through the copy changes the value the blackboard itself reports, so the
claim that any caller mutation (including of nested values) leaves internal
state unchanged is false. -/
theorem claim_C8_counterexample :
    (get_section ⟨[("s", 1)]⟩ ⟨[(0, [("x", .prim "1")]), (1, [("k", .ref 0)])], 2⟩ "s").1 = 2
    ∧ (get_section ⟨[("s", 1)]⟩ ⟨[(0, [("x", .prim "1")]), (1, [("k", .ref 0)])], 2⟩ "s").2.lookup 2 =
        some [("k", PyVal.ref 0)]
    ∧ deep_get ⟨[("s", 1)]⟩
        (get_section ⟨[("s", 1)]⟩ ⟨[(0, [("x", .prim "1")]), (1, [("k", .ref 0)])], 2⟩ "s").2
        "s" "k" ["x"] = some (.prim "1")
    ∧ deep_get ⟨[("s", 1)]⟩
        ((get_section ⟨[("s", 1)]⟩ ⟨[(0, [("x", .prim "1")]), (1, [("k", .ref 0)])], 2⟩ "s").2.write
          0 "x" (.prim "2"))
        "s" "k" ["x"] = some (.prim "2") := by
  refine ⟨rfl, rfl, rfl, rfl⟩

/-- C8 (amended): `get_section` returns a defensive copy of the section's
top-level mapping only.  The returned dict is a fresh object distinct from
every internal section object, and writing any key/value into it leaves
every `Blackboard.get` of the internal store unchanged; but the copy is
shallow, so nested mutable values are shared by reference and in-place
mutation of a nested value is visible through the blackboard (see the
counterexample). -/
theorem claim_C8_shallow_copy (bb : Blackboard) (h : Heap) (sec : String)
    (hwf : ∀ e ∈ bb.sections, e.2 < h.next) :
    (∀ e ∈ bb.sections, e.2 ≠ (get_section bb h sec).1)
    ∧ ∀ (k : String) (v : PyVal) (sec' key' : String),
        Blackboard.get bb
          ((get_section bb h sec).2.write (get_section bb h sec).1 k v) sec' key'
          = Blackboard.get bb h sec' key' := by
  have hfst : (get_section bb h sec).1 = h.next := rfl
  constructor
  · intro e he
    rw [hfst]
    exact Nat.ne_of_lt (hwf e he)
  · intro k v sec' key'
    rw [Blackboard.get, Blackboard.get]
    cases hd : dget bb.sections sec' with
    | none => rfl
    | some a =>
      have ha : a < h.next := hwf (sec', a) (dget_mem _ _ _ hd)
      have hne : a ≠ h.next := Nat.ne_of_lt ha
      rw [hfst]
      show (match ((get_section bb h sec).2.write h.next k v).lookup a with
            | none => none
            | some o => dget o key') =
          (match h.lookup a with
            | none => none
            | some o => dget o key')
      rw [Heap.lookup_write_ne (get_section bb h sec).2 h.next k v a hne,
        get_section_lookup_ne bb h sec a hne]

/-- Concrete witness instance for C8 (amended). -/
theorem claim_C8_witness :
    (∀ e ∈ ([("s", 1)] : List (String × Addr)), e.2 < 2)
    ∧ Blackboard.get ⟨[("s", 1)]⟩
        ((get_section ⟨[("s", 1)]⟩ ⟨[(0, [("x", .prim "1")]), (1, [("k", .ref 0)])], 2⟩ "s").2.write
          (get_section ⟨[("s", 1)]⟩ ⟨[(0, [("x", .prim "1")]), (1, [("k", .ref 0)])], 2⟩ "s").1
          "fresh" (.prim "zz")) "s" "k"
        = Blackboard.get ⟨[("s", 1)]⟩ ⟨[(0, [("x", .prim "1")]), (1, [("k", .ref 0)])], 2⟩ "s" "k" :=
  ⟨by decide,
   (claim_C8_shallow_copy ⟨[("s", 1)]⟩ ⟨[(0, [("x", .prim "1")]), (1, [("k", .ref 0)])], 2⟩ "s"
      (by decide)).2 "fresh" (.prim "zz") "s" "k"⟩

/-! ## Structured-result extractor — `src/utils.py`

`parse_llm_json_output` is modelled over `List Char`.  The pieces:

* a JSON value type and a model of `json.loads` (recursive-descent parser
  with fuel) and of `json.dumps` (default separators `", "` and `": "`);
  numbers are integers (no floats, no exponents), strings cover the quote,
  backslash, slash and common control escapes but not `\uXXXX`;
* models of the two `re.search` calls: the non-greedy tag-region pattern
  and the greedy brace pattern `\x7b.*\x7d|\[.*\]` with DOTALL, which runs
  from the leftmost opening brace/bracket to the LAST matching closer;
* the staged fall-through logic of the source. -/

inductive Json where
  | null
  | bool (b : Bool)
  | num (n : Int)
  | str (s : List Char)
  | arr (elems : List Json)
  | obj (entries : List (List Char × Json))

/-- JSON whitespace as `json.loads` skips it. -/
def isJWs (c : Char) : Bool := c = ' ' || c = '\t' || c = '\n' || c = '\r'

def skipJWs : List Char → List Char
  | [] => []
  | c :: cs => if isJWs c then skipJWs cs else c :: cs

def isDig (c : Char) : Bool := '0' ≤ c && c ≤ '9'

def digVal (c : Char) : Nat := c.toNat - '0'.toNat

/-- Unescaping after a backslash inside a JSON string. -/
def unescChar (c : Char) : Option Char :=
  if c = '"' then some '"'
  else if c = '\\' then some '\\'
  else if c = '/' then some '/'
  else if c = 'n' then some '\n'
  else if c = 't' then some '\t'
  else if c = 'r' then some '\r'
  else if c = 'b' then some (Char.ofNat 8)
  else if c = 'f' then some (Char.ofNat 12)
  else none

/-- String-body parsing after the opening quote, accumulator reversed. -/
def parseStrBody (acc : List Char) : List Char → Option (List Char × List Char)
  | [] => none
  | c :: rest =>
    if c = '"' then some (acc.reverse, rest)
    else if c = '\\' then
      match rest with
      | [] => none
      | e :: rest2 =>
        match unescChar e with
        | some c2 => parseStrBody (c2 :: acc) rest2
        | none => none
    else parseStrBody (c :: acc) rest

/-- A run of decimal digits read most-significant first. -/
def parseNatTok (cs : List Char) : Option (Nat × List Char) :=
  let run := cs.takeWhile isDig
  if run.isEmpty then none
  else some (run.foldl (fun a c => 10 * a + digVal c) 0, cs.dropWhile isDig)

/-- An optional minus sign followed by digits (the integer fragment of the
JSON number grammar). -/
def parseIntTok : List Char → Option (Int × List Char)
  | [] => none
  | c :: rest =>
    if c = '-' then (parseNatTok rest).map (fun r => (-(r.1 : Int), r.2))
    else (parseNatTok (c :: rest)).map (fun r => ((r.1 : Int), r.2))

/-! The value parser: fuel strictly decreases on every call, so the
recursion is structural and the parser evaluates inside the kernel. -/
mutual
def parseVal : Nat → List Char → Option (Json × List Char)
  | 0, _ => none
  | fuel + 1, cs =>
    match skipJWs cs with
    | [] => none
    | c :: rest =>
      if c = 'n' then
        match rest with
        | 'u' :: 'l' :: 'l' :: r => some (.null, r)
        | _ => none
      else if c = 't' then
        match rest with
        | 'r' :: 'u' :: 'e' :: r => some (.bool true, r)
        | _ => none
      else if c = 'f' then
        match rest with
        | 'a' :: 'l' :: 's' :: 'e' :: r => some (.bool false, r)
        | _ => none
      else if c = '"' then
        match parseStrBody [] rest with
        | some r => some (.str r.1, r.2)
        | none => none
      else if c = '[' then
        match skipJWs rest with
        | [] => none
        | c2 :: rest2 =>
          if c2 = ']' then some (.arr [], rest2)
          else
            match parseItems fuel (c2 :: rest2) with
            | some r => some (.arr r.1, r.2)
            | none => none
      else if c = '{' then
        match skipJWs rest with
        | [] => none
        | c2 :: rest2 =>
          if c2 = '}' then some (.obj [], rest2)
          else
            match parseEntries fuel (c2 :: rest2) with
            | some r => some (.obj r.1, r.2)
            | none => none
      else if c = '-' || isDig c then
        match parseIntTok (c :: rest) with
        | some r => some (.num r.1, r.2)
        | none => none
      else none
def parseItems : Nat → List Char → Option (List Json × List Char)
  | 0, _ => none
  | fuel + 1, cs =>
    match parseVal fuel cs with
    | none => none
    | some r =>
      match skipJWs r.2 with
      | [] => none
      | c :: rest =>
        if c = ',' then
          match parseItems fuel rest with
          | some r2 => some (r.1 :: r2.1, r2.2)
          | none => none
        else if c = ']' then some ([r.1], rest)
        else none
def parseEntries : Nat → List Char → Option (List (List Char × Json) × List Char)
  | 0, _ => none
  | fuel + 1, cs =>
    match skipJWs cs with
    | [] => none
    | c :: rest =>
      if c = '"' then
        match parseStrBody [] rest with
        | none => none
        | some rk =>
          match skipJWs rk.2 with
          | [] => none
          | c2 :: rest2 =>
            if c2 = ':' then
              match parseVal fuel rest2 with
              | none => none
              | some rv =>
                match skipJWs rv.2 with
                | [] => none
                | c3 :: rest3 =>
                  if c3 = ',' then
                    match parseEntries fuel rest3 with
                    | some rr => some ((rk.1, rv.1) :: rr.1, rr.2)
                    | none => none
                  else if c3 = '}' then some ([(rk.1, rv.1)], rest3)
                  else none
            else none
      else none
end

/-- Model of `json.loads`: parse one value and require only whitespace to
remain. -/
def json_loads (cs : List Char) : Option Json :=
  match parseVal (cs.length + 1) cs with
  | none => none
  | some r => if (skipJWs r.2).isEmpty then some r.1 else none

/-! Rendering: a model of `json.dumps` with the default separators
`", "` between items and `": "` after keys. -/

def digitChr (d : Nat) : Char := Char.ofNat ('0'.toNat + d % 10)

/-- Decimal digit characters, most significant first; structural on fuel
(the value shrinks by a factor of ten per step, so fuel `n` suffices). -/
def natChars : Nat → Nat → List Char
  | 0, _ => []
  | fuel + 1, n => if n = 0 then [] else natChars fuel (n / 10) ++ [digitChr (n % 10)]

def renderNat (n : Nat) : List Char := if n = 0 then ['0'] else natChars n n

def renderInt (i : Int) : List Char :=
  if i < 0 then '-' :: renderNat i.natAbs else renderNat i.natAbs

/-- One character inside a rendered JSON string. -/
def escChar (c : Char) : List Char :=
  if c = '"' then ['\\', '"']
  else if c = '\\' then ['\\', '\\']
  else if c = '\n' then ['\\', 'n']
  else if c = '\t' then ['\\', 't']
  else if c = '\r' then ['\\', 'r']
  else [c]

def renderStr (s : List Char) : List Char := '"' :: (s.flatMap escChar ++ ['"'])

mutual
def renderJ : Json → List Char
  | .null => "null".toList
  | .bool true => "true".toList
  | .bool false => "false".toList
  | .num i => renderInt i
  | .str s => renderStr s
  | .arr es => '[' :: (renderItems es ++ [']'])
  | .obj ms => '{' :: (renderEntries ms ++ ['}'])
def renderItems : List Json → List Char
  | [] => []
  | e :: es => renderJ e ++ renderItemsSep es
def renderItemsSep : List Json → List Char
  | [] => []
  | e :: es => ',' :: ' ' :: (renderJ e ++ renderItemsSep es)
def renderEntries : List (List Char × Json) → List Char
  | [] => []
  | (k, v) :: ms => renderStr k ++ ':' :: ' ' :: renderJ v ++ renderEntriesSep ms
def renderEntriesSep : List (List Char × Json) → List Char
  | [] => []
  | (k, v) :: ms =>
    ',' :: ' ' :: (renderStr k ++ ':' :: ' ' :: renderJ v ++ renderEntriesSep ms)
end

/-! Models of the two regular-expression searches of the source. -/

/-- Python `str.strip()` whitespace. -/
def pyWs (c : Char) : Bool :=
  c = ' ' || c = '\t' || c = '\n' || c = '\r' || c = '\x0b' || c = '\x0c'

/-- Python `str.strip()`. -/
def pstrip (cs : List Char) : List Char :=
  ((cs.dropWhile pyWs).reverse.dropWhile pyWs).reverse

/-- Index of the first occurrence of `needle` as a contiguous substring. -/
def strFind (needle : List Char) : List Char → Option Nat
  | [] => if needle.isEmpty then some 0 else none
  | c :: t =>
    if needle.isPrefixOf (c :: t) then some 0
    else (strFind needle t).map (· + 1)

/-- The Stage-1 search `re.search(rf"<\x7btag\x7d>(.*?)</\x7btag\x7d>", s, DOTALL)`:
the region between the first opening marker and the first closing marker
after it (non-greedy group, leftmost match). -/
def xmlRegion (tag text : List Char) : Option (List Char) :=
  let openM := '<' :: (tag ++ ['>'])
  let closeM := '<' :: '/' :: (tag ++ ['>'])
  match strFind openM text with
  | none => none
  | some i =>
    let afterOpen := text.drop (i + openM.length)
    match strFind closeM afterOpen with
    | none => none
    | some j => some (afterOpen.take j)

/-- Index of the last occurrence of a character. -/
def lastIdx (c : Char) : List Char → Option Nat
  | [] => none
  | x :: t =>
    match lastIdx c t with
    | some j => some (j + 1)
    | none => if x = c then some 0 else none

/-- The JSON-shape search `re.search(r"\x7b.*\x7d|\[.*\]", s, DOTALL)`: the
leftmost position opening a brace (preferred) or bracket that has a
matching closer somewhere later, extended greedily to the LAST such closer
in the string. -/
def jsonSpan : List Char → Option (List Char)
  | [] => none
  | c :: t =>
    if c = '{' && (lastIdx '}' t).isSome then
      some (c :: t.take ((lastIdx '}' t).getD 0 + 1))
    else if c = '[' && (lastIdx ']' t).isSome then
      some (c :: t.take ((lastIdx ']' t).getD 0 + 1))
    else jsonSpan t

/-- `parse_llm_json_output` of `src/utils.py`: Stage 1 looks for the tag
region and parses the greedy JSON-shaped span inside it; on any failure it
falls through to Stage 2, the same greedy search over the whole response;
if that also fails the result is None (Stage 3). -/
def parse_llm_json_output (response_str xml_tag : List Char) : Option Json :=
  let stage2 : Option Json :=
    match jsonSpan response_str with
    | some m =>
      match json_loads (pstrip m) with
      | some v => some v
      | none => none
    | none => none
  match xmlRegion xml_tag response_str with
  | some g =>
    let content := pstrip g
    match jsonSpan content with
    | some m =>
      match json_loads (pstrip m) with
      | some v => some v
      | none => stage2
    | none => stage2
  | none => stage2

/-! ## Claims about the extractor -/

/-- Shortest parseable prefix of `cs` among lengths 1..bound
(specification-side helper for the claimed "first balanced JSON" reading). -/
def tryPrefixes (cs : List Char) : Nat → Option Json
  | 0 => none
  | k + 1 =>
    match tryPrefixes cs k with
    | some v => some v
    | none => json_loads (cs.take (k + 1))

/-- The specification's "first balanced JSON object or array": from the
leftmost position opening a brace or bracket, the shortest substring that
parses as JSON; if none parses there, continue scanning. -/
def firstBalancedJson : List Char → Option Json
  | [] => none
  | c :: t =>
    if c = '{' || c = '[' then
      match tryPrefixes (c :: t) (t.length + 1) with
      | some v => some v
      | none => firstBalancedJson t
    else firstBalancedJson t

/-- The claim's reading of the extractor: tag region first, then the first
balanced JSON inside it, then the first balanced JSON anywhere. -/
def spec_staged_extract (xml_tag text : List Char) : Option Json :=
  match xmlRegion xml_tag text with
  | some g =>
    match firstBalancedJson (pstrip g) with
    | some v => some v
    | none => firstBalancedJson text
  | none => firstBalancedJson text

/-- Stage 1 of the source as a composition: tag region, greedy JSON-shaped
span inside it, parse. -/
def stage1_tag_extract (xml_tag text : List Char) : Option Json :=
  (xmlRegion xml_tag text).bind fun g =>
    (jsonSpan (pstrip g)).bind fun m => json_loads (pstrip m)

/-- Stage 2 of the source as a composition: greedy JSON-shaped span over
the whole text, parse. -/
def stage2_raw_extract (text : List Char) : Option Json :=
  (jsonSpan text).bind fun m => json_loads (pstrip m)

/-- C6 counterexample: the source does not parse the *first balanced* JSON
value in the tag region — its regex is greedy, spanning from the first
opening brace to the LAST closing brace.  On `<t>{"a": 1} }</t>` the claim's
reading extracts `{"a": 1}`, but the greedy span `{"a": 1} }` fails to
parse in both stages and the source returns None. -/
theorem claim_C6_counterexample :
    parse_llm_json_output "<t>\x7b\"a\": 1\x7d \x7d</t>".toList "t".toList = none
    ∧ spec_staged_extract "t".toList "<t>\x7b\"a\": 1\x7d \x7d</t>".toList =
        some (.obj [("a".toList, .num 1)]) :=
  ⟨rfl, rfl⟩

theorem stage2_match_unfold (x : List Char) :
    (match jsonSpan x with
     | some m =>
       match json_loads (pstrip m) with
       | some v => some v
       | none => none
     | none => none) = stage2_raw_extract x := by
  rw [stage2_raw_extract]
  cases hs : jsonSpan x with
  | none => rfl
  | some m =>
    rw [Option.some_bind]
    dsimp only
    cases hl : json_loads (pstrip m) with
    | none => rfl
    | some v => rfl

/-- C6 (amended): the extractor proceeds in order with first success
winning — Stage 1 locates the first tag-delimited region and parses the
greedy JSON-shaped span inside it (from the first opening brace or bracket
to the last corresponding closer, not the first balanced value); when no
marker is found or no span parses there, the result is exactly Stage 2,
parsing the greedy JSON-shaped span of the entire input; if neither
succeeds the result is None, and the function is total (never raises). -/
theorem claim_C6_staged_extraction (r t : List Char) :
    (∀ v, stage1_tag_extract t r = some v → parse_llm_json_output r t = some v)
    ∧ (stage1_tag_extract t r = none →
        parse_llm_json_output r t = stage2_raw_extract r) := by
  constructor
  · intro v h
    rw [stage1_tag_extract] at h
    cases hx : xmlRegion t r with
    | none => rw [hx] at h; simp at h
    | some g =>
      rw [hx, Option.some_bind] at h
      cases h1 : jsonSpan (pstrip g) with
      | none => rw [h1] at h; simp at h
      | some m1 =>
        rw [h1, Option.some_bind] at h
        simp only [parse_llm_json_output]
        rw [hx]
        dsimp only
        rw [h1]
        dsimp only
        rw [h]
  · intro h
    rw [stage1_tag_extract] at h
    cases hx : xmlRegion t r with
    | none =>
      simp only [parse_llm_json_output]
      rw [hx]
      dsimp only
      exact stage2_match_unfold r
    | some g =>
      rw [hx, Option.some_bind] at h
      simp only [parse_llm_json_output]
      rw [hx]
      dsimp only
      cases h1 : jsonSpan (pstrip g) with
      | none =>
        dsimp only
        exact stage2_match_unfold r
      | some m1 =>
        rw [h1, Option.some_bind] at h
        dsimp only
        cases hl : json_loads (pstrip m1) with
        | none =>
          dsimp only
          exact stage2_match_unfold r
        | some v => rw [hl] at h; exact absurd h (by simp)

/-- Concrete witness instance for C6: a well-tagged payload is extracted in
Stage 1. -/
theorem claim_C6_witness :
    stage1_tag_extract "t".toList "<t>\x7b\"a\": 1\x7d</t>".toList =
      some (.obj [("a".toList, .num 1)])
    ∧ parse_llm_json_output "<t>\x7b\"a\": 1\x7d</t>".toList "t".toList =
      some (.obj [("a".toList, .num 1)]) :=
  ⟨rfl,
   (claim_C6_staged_extraction "<t>\x7b\"a\": 1\x7d</t>".toList "t".toList).1 _ rfl⟩

/-! ## Round-trip lemmas: the parser model inverts the renderer model -/

/-- A remainder that cannot extend a digit run: empty or headed by a
non-digit.  Every JSON delimiter qualifies. -/
def restOk : List Char → Bool
  | [] => true
  | c :: _ => !(isDig c)

theorem digitChr_spec (d : Nat) (h : d < 10) :
    digVal (digitChr d) = d ∧ isDig (digitChr d) = true := by
  interval_cases d <;> exact ⟨by decide, by decide⟩

theorem natChars_all_dig : ∀ (fuel n : Nat), ∀ c ∈ natChars fuel n, isDig c = true := by
  intro fuel
  induction fuel with
  | zero => intro n c hc; simp [natChars] at hc
  | succ f ih =>
    intro n c hc
    rw [natChars] at hc
    by_cases hn : n = 0
    · simp [hn] at hc
    · rw [if_neg hn] at hc
      rcases List.mem_append.mp hc with h1 | h2
      · exact ih _ c h1
      · rcases List.mem_singleton.mp h2 with rfl
        exact (digitChr_spec (n % 10) (Nat.mod_lt _ (by omega))).2

theorem natChars_ne_nil (fuel n : Nat) (hn : n ≠ 0) (hf : n ≤ fuel) :
    natChars fuel n ≠ [] := by
  cases fuel with
  | zero => omega
  | succ f =>
    rw [natChars, if_neg hn]
    simp

theorem natChars_foldl : ∀ (fuel n : Nat), n ≤ fuel → ∀ a : Nat,
    (natChars fuel n).foldl (fun a c => 10 * a + digVal c) a
      = a * 10 ^ (natChars fuel n).length + n := by
  intro fuel
  induction fuel with
  | zero =>
    intro n hn a
    interval_cases n
    simp [natChars]
  | succ f ih =>
    intro n hn a
    rw [natChars]
    by_cases h0 : n = 0
    · simp [h0]
    · rw [if_neg h0, List.foldl_append, ih (n / 10) (by omega)]
      simp only [List.foldl_cons, List.foldl_nil, List.length_append,
        List.length_cons, List.length_nil]
      rw [(digitChr_spec (n % 10) (Nat.mod_lt _ (by omega))).1, pow_succ, ← mul_assoc]
      generalize a * 10 ^ (natChars f (n / 10)).length = Q
      omega

theorem span_digits (ds rest : List Char) (hds : ∀ c ∈ ds, isDig c = true)
    (hr : restOk rest = true) :
    (ds ++ rest).takeWhile isDig = ds ∧ (ds ++ rest).dropWhile isDig = rest := by
  induction ds with
  | nil =>
    simp only [List.nil_append]
    cases rest with
    | nil => exact ⟨rfl, rfl⟩
    | cons c t =>
      rw [restOk, Bool.not_eq_true'] at hr
      constructor
      · rw [List.takeWhile_cons, hr]; rfl
      · rw [List.dropWhile_cons, hr]; rfl
  | cons d ds' ih =>
    have hd : isDig d = true := hds d (List.mem_cons_self _ _)
    have ih2 := ih (fun c hc => hds c (List.mem_cons_of_mem _ hc))
    constructor
    · rw [List.cons_append, List.takeWhile_cons, hd, if_pos rfl, ih2.1]
    · rw [List.cons_append, List.dropWhile_cons, hd]
      simp only [if_pos rfl]
      exact ih2.2

theorem parseNatTok_render (n : Nat) (rest : List Char) (hr : restOk rest = true) :
    parseNatTok (renderNat n ++ rest) = some (n, rest) := by
  by_cases h0 : n = 0
  · subst h0
    have hsp := span_digits ['0'] rest
      (by intro c hc; rcases List.mem_singleton.mp hc with rfl; decide) hr
    have h1 : renderNat 0 = ['0'] := rfl
    rw [h1]
    simp only [parseNatTok, hsp.1, hsp.2]
    norm_num [digVal]
  · have hsp := span_digits (natChars n n) rest (natChars_all_dig n n) hr
    have h1 : renderNat n = natChars n n := by rw [renderNat, if_neg h0]
    have hne := natChars_ne_nil n n h0 (le_refl n)
    have hemp : (natChars n n).isEmpty = false := by
      cases hcons : natChars n n with
      | nil => exact absurd hcons hne
      | cons c t => rfl
    rw [h1]
    simp only [parseNatTok, hsp.1, hsp.2, hemp, Bool.false_eq_true, if_neg]
    rw [natChars_foldl n n (le_refl n) 0]
    simp

theorem renderNat_head (n : Nat) : ∃ c t, renderNat n = c :: t ∧ isDig c = true := by
  by_cases h0 : n = 0
  · subst h0; exact ⟨'0', [], rfl, by decide⟩
  · have hne := natChars_ne_nil n n h0 (le_refl n)
    cases hcons : natChars n n with
    | nil => exact absurd hcons hne
    | cons c t =>
      refine ⟨c, t, ?_, ?_⟩
      · rw [renderNat, if_neg h0, hcons]
      · exact natChars_all_dig n n c (by rw [hcons]; exact List.mem_cons_self _ _)

theorem parseIntTok_render (i : Int) (rest : List Char) (hr : restOk rest = true) :
    parseIntTok (renderInt i ++ rest) = some (i, rest) := by
  by_cases hneg : i < 0
  · have h1 : renderInt i = '-' :: renderNat i.natAbs := by rw [renderInt, if_pos hneg]
    rw [h1, List.cons_append, parseIntTok, if_pos rfl, parseNatTok_render _ _ hr]
    simp only [Option.map_some']
    rw [show -((i.natAbs : Nat) : Int) = i from by omega]
  · have h1 : renderInt i = renderNat i.natAbs := by rw [renderInt, if_neg hneg]
    obtain ⟨c, t, hct, hcd⟩ := renderNat_head i.natAbs
    have hcm : c ≠ '-' := by
      intro hcc; subst hcc; exact absurd hcd (by decide)
    rw [h1, hct, List.cons_append, parseIntTok, if_neg hcm, ← List.cons_append, ← hct,
      parseNatTok_render _ _ hr]
    simp only [Option.map_some']
    rw [show ((i.natAbs : Nat) : Int) = i from by omega]

theorem parseStrBody_esc_step (acc rest : List Char) (e c2 : Char)
    (he : unescChar e = some c2) :
    parseStrBody acc ('\\' :: e :: rest) = parseStrBody (c2 :: acc) rest := by
  rw [parseStrBody.eq_def]
  dsimp only
  rw [if_neg (by decide : ¬('\\' = '"')), if_pos rfl, he]

theorem parseStrBody_raw_step (acc rest : List Char) (c : Char)
    (h1 : c ≠ '"') (h2 : c ≠ '\\') :
    parseStrBody acc (c :: rest) = parseStrBody (c :: acc) rest := by
  rw [parseStrBody.eq_def]
  dsimp only
  rw [if_neg h1, if_neg h2]

theorem parseStrBody_close (acc rest : List Char) :
    parseStrBody acc ('"' :: rest) = some (acc.reverse, rest) := by
  rw [parseStrBody.eq_def]
  dsimp only
  rw [if_pos rfl]

theorem parseStrBody_render (s : List Char) : ∀ (acc rest : List Char),
    parseStrBody acc (s.flatMap escChar ++ '"' :: rest) = some (acc.reverse ++ s, rest) := by
  induction s with
  | nil =>
    intro acc rest
    rw [List.flatMap_nil, List.nil_append, parseStrBody_close]
    simp
  | cons c s' ih =>
    intro acc rest
    rw [List.flatMap_cons, List.append_assoc]
    by_cases h1 : c = '"'
    · subst h1
      rw [show escChar '"' = ['\\', '"'] from rfl, List.cons_append, List.cons_append,
        List.nil_append, parseStrBody_esc_step _ _ '"' '"' (by decide), ih]
      simp
    · by_cases h2 : c = '\\'
      · subst h2
        rw [show escChar '\\' = ['\\', '\\'] from rfl, List.cons_append, List.cons_append,
          List.nil_append, parseStrBody_esc_step _ _ '\\' '\\' (by decide), ih]
        simp
      · by_cases h3 : c = '\n'
        · subst h3
          rw [show escChar '\n' = ['\\', 'n'] from rfl, List.cons_append, List.cons_append,
            List.nil_append, parseStrBody_esc_step _ _ 'n' '\n' (by decide), ih]
          simp
        · by_cases h4 : c = '\t'
          · subst h4
            rw [show escChar '\t' = ['\\', 't'] from rfl, List.cons_append, List.cons_append,
              List.nil_append, parseStrBody_esc_step _ _ 't' '\t' (by decide), ih]
            simp
          · by_cases h5 : c = '\r'
            · subst h5
              rw [show escChar '\r' = ['\\', 'r'] from rfl, List.cons_append,
                List.cons_append, List.nil_append,
                parseStrBody_esc_step _ _ 'r' '\r' (by decide), ih]
              simp
            · have hesc : escChar c = [c] := by
                rw [escChar, if_neg h1, if_neg h2, if_neg h3, if_neg h4, if_neg h5]
              rw [hesc, List.cons_append, List.nil_append,
                parseStrBody_raw_step _ _ _ h1 h2, ih]
              simp

theorem isDig_ne {c : Char} (h : isDig c = true) (d : Char) (hd : isDig d = false) :
    c ≠ d := by
  intro he; subst he; rw [h] at hd; cases hd

theorem isDig_not_ws {c : Char} (h : isDig c = true) : isJWs c = false := by
  rw [isJWs]
  simp only [Bool.or_eq_false_iff, decide_eq_false_iff_not]
  refine ⟨⟨⟨?_, ?_⟩, ?_⟩, ?_⟩ <;> intro he <;> subst he <;> exact absurd h (by decide)

theorem renderJ_head (v : Json) :
    ∃ c t, renderJ v = c :: t ∧ isJWs c = false ∧ c ≠ ']' := by
  cases v with
  | null => exact ⟨'n', _, rfl, by decide, by decide⟩
  | bool b =>
    cases b with
    | true => exact ⟨'t', _, rfl, by decide, by decide⟩
    | false => exact ⟨'f', _, rfl, by decide, by decide⟩
  | str s => exact ⟨'"', _, rfl, by decide, by decide⟩
  | arr es => exact ⟨'[', _, rfl, by decide, by decide⟩
  | obj ms => exact ⟨'{', _, rfl, by decide, by decide⟩
  | num i =>
    have hn : renderJ (.num i) = renderInt i := rfl
    by_cases hneg : i < 0
    · refine ⟨'-', renderNat i.natAbs, ?_, by decide, by decide⟩
      rw [hn, renderInt, if_pos hneg]
    · obtain ⟨c, t, hct, hcd⟩ := renderNat_head i.natAbs
      refine ⟨c, t, ?_, isDig_not_ws hcd, isDig_ne hcd _ (by decide)⟩
      rw [hn, renderInt, if_neg hneg, hct]

theorem skipJWs_cons_not (c : Char) (cs : List Char) (h : isJWs c = false) :
    skipJWs (c :: cs) = c :: cs := by
  simp [skipJWs, h]

theorem skipJWs_render (v : Json) (x : List Char) :
    skipJWs (renderJ v ++ x) = renderJ v ++ x := by
  obtain ⟨c, t, hct, hws, _⟩ := renderJ_head v
  rw [hct, List.cons_append]
  exact skipJWs_cons_not c _ hws

theorem parseVal_ws (fuel : Nat) (c : Char) (cs : List Char) (h : isJWs c = true) :
    parseVal fuel (c :: cs) = parseVal fuel cs := by
  cases fuel with
  | zero => rfl
  | succ f =>
    have hs : skipJWs (c :: cs) = skipJWs cs := by simp [skipJWs, h]
    conv_lhs => rw [parseVal.eq_def]
    conv_rhs => rw [parseVal.eq_def]
    dsimp only
    rw [hs]

theorem parseItems_ws (fuel : Nat) (c : Char) (cs : List Char) (h : isJWs c = true) :
    parseItems fuel (c :: cs) = parseItems fuel cs := by
  cases fuel with
  | zero => rfl
  | succ f =>
    conv_lhs => rw [parseItems.eq_def]
    conv_rhs => rw [parseItems.eq_def]
    dsimp only
    rw [parseVal_ws f c cs h]

theorem parseEntries_ws (fuel : Nat) (c : Char) (cs : List Char) (h : isJWs c = true) :
    parseEntries fuel (c :: cs) = parseEntries fuel cs := by
  cases fuel with
  | zero => rfl
  | succ f =>
    have hs : skipJWs (c :: cs) = skipJWs cs := by simp [skipJWs, h]
    conv_lhs => rw [parseEntries.eq_def]
    conv_rhs => rw [parseEntries.eq_def]
    dsimp only
    rw [hs]

theorem parseVal_num_render (f : Nat) (i : Int) (rest : List Char)
    (hr : restOk rest = true) :
    parseVal (f + 1) (renderInt i ++ rest) = some (.num i, rest) := by
  by_cases hneg : i < 0
  · have h1 : renderInt i = '-' :: renderNat i.natAbs := by rw [renderInt, if_pos hneg]
    rw [h1, List.cons_append, parseVal.eq_def]
    dsimp only
    rw [skipJWs_cons_not '-' _ (by decide)]
    dsimp only
    rw [if_neg (by decide), if_neg (by decide), if_neg (by decide), if_neg (by decide),
      if_neg (by decide), if_neg (by decide), if_pos (by decide)]
    rw [← List.cons_append, ← h1, parseIntTok_render i rest hr]
  · have h1 : renderInt i = renderNat i.natAbs := by rw [renderInt, if_neg hneg]
    obtain ⟨c, t, hct, hcd⟩ := renderNat_head i.natAbs
    rw [h1, hct, List.cons_append, parseVal.eq_def]
    dsimp only
    rw [skipJWs_cons_not c _ (isDig_not_ws hcd)]
    dsimp only
    rw [if_neg (isDig_ne hcd _ (by decide)), if_neg (isDig_ne hcd _ (by decide)),
      if_neg (isDig_ne hcd _ (by decide)), if_neg (isDig_ne hcd _ (by decide)),
      if_neg (isDig_ne hcd _ (by decide)), if_neg (isDig_ne hcd _ (by decide)),
      if_pos (by simp [hcd])]
    rw [← List.cons_append, ← hct, ← h1, parseIntTok_render i rest hr]

/-- Round trip of the parser against the renderer, all three mutual parsers
at once, by induction on fuel: rendered values parse back exactly when the
remainder cannot extend a number token. -/
theorem rt_fuel : ∀ (fuel : Nat),
    (∀ (v : Json) (rest : List Char), (renderJ v).length < fuel → restOk rest = true →
        parseVal fuel (renderJ v ++ rest) = some (v, rest)) ∧
    (∀ (e : Json) (es : List Json) (rest : List Char),
        (renderItems (e :: es)).length + 1 < fuel →
        parseItems fuel (renderItems (e :: es) ++ ']' :: rest) = some (e :: es, rest)) ∧
    (∀ (k : List Char) (v : Json) (ms : List (List Char × Json)) (rest : List Char),
        (renderEntries ((k, v) :: ms)).length + 1 < fuel →
        parseEntries fuel (renderEntries ((k, v) :: ms) ++ '}' :: rest) =
          some ((k, v) :: ms, rest)) := by
  intro fuel
  induction fuel with
  | zero =>
    exact ⟨fun v rest h _ => absurd h (by omega),
           fun e es rest h => absurd h (by omega),
           fun k v ms rest h => absurd h (by omega)⟩
  | succ f ih =>
    obtain ⟨ihv, ihi, ihe⟩ := ih
    refine ⟨?_, ?_, ?_⟩
    · intro v rest hlen hr
      cases v with
      | null => rfl
      | bool b => cases b <;> rfl
      | num i =>
        show parseVal (f + 1) (renderInt i ++ rest) = some (Json.num i, rest)
        exact parseVal_num_render f i rest hr
      | str s =>
        have hsh : renderJ (.str s) ++ rest = '"' :: (s.flatMap escChar ++ '"' :: rest) := by
          show ('"' :: (s.flatMap escChar ++ ['"'])) ++ rest = _
          simp [List.append_assoc]
        rw [hsh, parseVal.eq_def]
        dsimp only
        rw [skipJWs_cons_not _ _ (by decide)]
        dsimp only
        rw [if_neg (by decide), if_neg (by decide), if_neg (by decide), if_pos rfl]
        rw [parseStrBody_render s [] rest]
        rfl
      | arr es =>
        cases es with
        | nil => rfl
        | cons e es' =>
          have hL : (renderJ (.arr (e :: es'))).length = (renderItems (e :: es')).length + 2 := by
            show ('[' :: (renderItems (e :: es') ++ [']'])).length = _
            simp
          have hsh : renderJ (.arr (e :: es')) ++ rest =
              '[' :: (renderItems (e :: es') ++ ']' :: rest) := by
            show ('[' :: (renderItems (e :: es') ++ [']'])) ++ rest = _
            simp [List.append_assoc]
          rw [hsh, parseVal.eq_def]
          dsimp only
          rw [skipJWs_cons_not _ _ (by decide)]
          dsimp only
          rw [if_neg (by decide), if_neg (by decide), if_neg (by decide),
            if_neg (by decide), if_pos rfl]
          obtain ⟨c0, t0, hct, hws, hne⟩ := renderJ_head e
          have hitems : renderItems (e :: es') ++ ']' :: rest =
              c0 :: (t0 ++ (renderItemsSep es' ++ ']' :: rest)) := by
            show (renderJ e ++ renderItemsSep es') ++ ']' :: rest = _
            rw [hct]
            simp [List.append_assoc]
          rw [hitems, skipJWs_cons_not _ _ hws]
          dsimp only
          rw [if_neg hne, ← hitems, ihi e es' rest (by omega)]
      | obj ms =>
        cases ms with
        | nil => rfl
        | cons m ms' =>
          obtain ⟨k, w⟩ := m
          have hL : (renderJ (.obj ((k, w) :: ms'))).length =
              (renderEntries ((k, w) :: ms')).length + 2 := by
            show ('{' :: (renderEntries ((k, w) :: ms') ++ ['}'])).length = _
            simp
          have hsh : renderJ (.obj ((k, w) :: ms')) ++ rest =
              '{' :: (renderEntries ((k, w) :: ms') ++ '}' :: rest) := by
            show ('{' :: (renderEntries ((k, w) :: ms') ++ ['}'])) ++ rest = _
            simp [List.append_assoc]
          rw [hsh, parseVal.eq_def]
          dsimp only
          rw [skipJWs_cons_not _ _ (by decide)]
          dsimp only
          rw [if_neg (by decide), if_neg (by decide), if_neg (by decide),
            if_neg (by decide), if_neg (by decide), if_pos rfl]
          have hent : renderEntries ((k, w) :: ms') ++ '}' :: rest =
              '"' :: ((k.flatMap escChar ++ ['"']) ++
                ((':' :: ' ' :: renderJ w) ++ (renderEntriesSep ms' ++ '}' :: rest))) := by
            rw [show renderEntries ((k, w) :: ms') =
              (renderStr k ++ ':' :: ' ' :: renderJ w) ++ renderEntriesSep ms' from rfl,
              renderStr]
            simp [List.append_assoc]
          rw [hent, skipJWs_cons_not _ _ (by decide)]
          dsimp only
          rw [if_neg (by decide), ← hent, ihe k w ms' rest (by omega)]
    · intro e es rest hlen
      conv_lhs => rw [parseItems.eq_def]
      dsimp only
      have hLe : (renderItems (e :: es)).length =
          (renderJ e).length + (renderItemsSep es).length := by
        show (renderJ e ++ renderItemsSep es).length = _
        simp
      have hsh : renderItems (e :: es) ++ ']' :: rest =
          renderJ e ++ (renderItemsSep es ++ ']' :: rest) := by
        show (renderJ e ++ renderItemsSep es) ++ ']' :: rest = _
        rw [List.append_assoc]
      have hro : restOk (renderItemsSep es ++ ']' :: rest) = true := by
        cases es with
        | nil => rfl
        | cons x xs => rfl
      rw [hsh, ihv e _ (by omega) hro]
      dsimp only
      cases es with
      | nil =>
        rw [show renderItemsSep ([] : List Json) ++ ']' :: rest = ']' :: rest from rfl]
        rw [skipJWs_cons_not _ _ (by decide)]
        dsimp only
        rw [if_neg (by decide), if_pos rfl]
      | cons x xs =>
        have hsep : renderItemsSep (x :: xs) ++ ']' :: rest =
            ',' :: ' ' :: (renderItems (x :: xs) ++ ']' :: rest) := by
          simp [renderItemsSep, renderItems, List.append_assoc]
        have hL2 : (renderItemsSep (x :: xs)).length = (renderItems (x :: xs)).length + 2 := by
          show (',' :: ' ' :: (renderJ x ++ renderItemsSep xs)).length =
              (renderJ x ++ renderItemsSep xs).length + 2
          simp
        obtain ⟨c0, t0, hct, -, -⟩ := renderJ_head e
        have h1 : 1 ≤ (renderJ e).length := by rw [hct]; simp
        rw [hsep, skipJWs_cons_not _ _ (by decide)]
        dsimp only
        rw [if_pos rfl, parseItems_ws f ' ' _ (by decide), ihi x xs rest (by omega)]
    · intro k v ms rest hlen
      conv_lhs => rw [parseEntries.eq_def]
      dsimp only
      have hLE : (renderEntries ((k, v) :: ms)).length =
          (renderStr k).length + 2 + (renderJ v).length + (renderEntriesSep ms).length := by
        rw [show renderEntries ((k, v) :: ms) =
          (renderStr k ++ ':' :: ' ' :: renderJ v) ++ renderEntriesSep ms from rfl]
        simp only [List.length_append, List.length_cons]
        omega
      have hsk : 2 ≤ (renderStr k).length := by rw [renderStr]; simp
      have hsh : renderEntries ((k, v) :: ms) ++ '}' :: rest =
          '"' :: (k.flatMap escChar ++ '"' ::
            (':' :: ' ' :: (renderJ v ++ (renderEntriesSep ms ++ '}' :: rest)))) := by
        rw [show renderEntries ((k, v) :: ms) =
          (renderStr k ++ ':' :: ' ' :: renderJ v) ++ renderEntriesSep ms from rfl,
          renderStr]
        simp [List.append_assoc]
      rw [hsh, skipJWs_cons_not _ _ (by decide)]
      dsimp only
      rw [if_pos rfl]
      rw [parseStrBody_render k []
        (':' :: ' ' :: (renderJ v ++ (renderEntriesSep ms ++ '}' :: rest)))]
      dsimp only
      rw [skipJWs_cons_not _ _ (by decide)]
      dsimp only
      rw [if_pos rfl]
      have hro : restOk (renderEntriesSep ms ++ '}' :: rest) = true := by
        cases ms with
        | nil => rfl
        | cons m ms2 =>
          obtain ⟨k2, v2⟩ := m
          rfl
      rw [parseVal_ws f ' ' _ (by decide), ihv v _ (by omega) hro]
      dsimp only
      cases ms with
      | nil =>
        rw [show renderEntriesSep ([] : List (List Char × Json)) ++ '}' :: rest =
            '}' :: rest from rfl]
        rw [skipJWs_cons_not _ _ (by decide)]
        dsimp only
        rw [if_neg (by decide), if_pos rfl]
        rfl
      | cons m ms2 =>
        obtain ⟨k2, v2⟩ := m
        have hsep : renderEntriesSep ((k2, v2) :: ms2) ++ '}' :: rest =
            ',' :: ' ' :: (renderEntries ((k2, v2) :: ms2) ++ '}' :: rest) := by
          rw [show renderEntriesSep ((k2, v2) :: ms2) =
            ',' :: ' ' :: ((renderStr k2 ++ ':' :: ' ' :: renderJ v2) ++
              renderEntriesSep ms2) from rfl,
            show renderEntries ((k2, v2) :: ms2) =
            (renderStr k2 ++ ':' :: ' ' :: renderJ v2) ++ renderEntriesSep ms2 from rfl]
          simp [List.append_assoc]
        have hL2 : (renderEntriesSep ((k2, v2) :: ms2)).length =
            (renderEntries ((k2, v2) :: ms2)).length + 2 := by
          rw [show renderEntriesSep ((k2, v2) :: ms2) =
            ',' :: ' ' :: ((renderStr k2 ++ ':' :: ' ' :: renderJ v2) ++
              renderEntriesSep ms2) from rfl,
            show renderEntries ((k2, v2) :: ms2) =
            (renderStr k2 ++ ':' :: ' ' :: renderJ v2) ++ renderEntriesSep ms2 from rfl]
          simp
        rw [hsep, skipJWs_cons_not _ _ (by decide)]
        dsimp only
        rw [if_pos rfl, parseEntries_ws f ' ' _ (by decide), ihe k2 v2 ms2 rest (by omega)]
        rfl

/-- A rendered value always parses back: the model of `json.loads` inverts
the model of `json.dumps`. -/
theorem json_loads_render (v : Json) : json_loads (renderJ v) = some v := by
  rw [json_loads]
  have h := (rt_fuel ((renderJ v).length + 1)).1 v [] (by omega) rfl
  rw [List.append_nil] at h
  rw [h]
  rfl

/-! ## Round trip of the whole extractor (C7): marker search, strip, greedy
span and parse on a rendered value wrapped in its tag. -/

/-- The exact string the engine asks the model to produce: the rendered
JSON wrapped in the tag's opening and closing markers. -/
def wrap_in_tag (tag body : List Char) : List Char :=
  ('<' :: (tag ++ ['>'])) ++ body ++ ('<' :: '/' :: (tag ++ ['>']))

theorem strFind_prefix_isSome (needle : List Char) :
    ∀ (hay : List Char) (p : Nat), needle.isPrefixOf (hay.drop p) = true →
      (strFind needle hay).isSome = true := by
  intro hay
  induction hay with
  | nil =>
    intro p hp
    rw [List.drop_nil] at hp
    cases needle with
    | nil => rfl
    | cons c t => exact absurd hp (by simp [List.isPrefixOf])
  | cons c t ih =>
    intro p hp
    rw [strFind]
    by_cases hpre : needle.isPrefixOf (c :: t) = true
    · rw [if_pos hpre]; rfl
    · rw [if_neg hpre]
      cases p with
      | zero => exact absurd hp hpre
      | succ p' =>
        rw [List.drop_succ_cons] at hp
        obtain ⟨a, ha⟩ := Option.isSome_iff_exists.mp (ih p' hp)
        rw [ha]
        rfl

theorem strFind_some (needle hay : List Char) (p : Nat)
    (hp : needle.isPrefixOf (hay.drop p) = true)
    (hmin : ∀ q, q < p → needle.isPrefixOf (hay.drop q) = false) :
    strFind needle hay = some p := by
  induction hay generalizing p with
  | nil =>
    rw [List.drop_nil] at hp
    cases needle with
    | nil =>
      cases p with
      | zero => rfl
      | succ p' =>
        have := hmin 0 (by omega)
        rw [List.drop_nil] at this
        exact absurd this (by simp [List.isPrefixOf])
    | cons c t => exact absurd hp (by simp [List.isPrefixOf])
  | cons c t ih =>
    rw [strFind]
    by_cases hpre : needle.isPrefixOf (c :: t) = true
    · rw [if_pos hpre]
      cases p with
      | zero => rfl
      | succ p' =>
        have := hmin 0 (by omega)
        rw [List.drop_zero] at this
        exact absurd hpre (by rw [this]; exact Bool.false_ne_true)
    · rw [if_neg hpre]
      cases p with
      | zero => exact absurd hp hpre
      | succ p' =>
        rw [List.drop_succ_cons] at hp
        have hmin' : ∀ q, q < p' → needle.isPrefixOf (t.drop q) = false := by
          intro q hq
          have := hmin (q + 1) (by omega)
          rw [List.drop_succ_cons] at this
          exact this
        rw [ih p' hp hmin']
        rfl

theorem strFind_append_self (N A0 : List Char) (c1 : Char)
    (hc1 : c1 ∉ N)
    (hno : strFind N (A0 ++ [c1]) = none) :
    strFind N ((A0 ++ [c1]) ++ N) = some (A0 ++ [c1]).length := by
  apply strFind_some
  · rw [List.drop_left, List.isPrefixOf_iff_prefix]
  · intro q hq
    by_contra hcon
    rw [Bool.not_eq_false, List.isPrefixOf_iff_prefix] at hcon
    have hqle : q ≤ (A0 ++ [c1]).length := by omega
    have hdrop : ((A0 ++ [c1]) ++ N).drop q = (A0 ++ [c1]).drop q ++ N :=
      List.drop_append_of_le_length hqle
    rw [hdrop] at hcon
    by_cases hlen : q + N.length ≤ (A0 ++ [c1]).length
    · have hNlen : N.length ≤ ((A0 ++ [c1]).drop q).length := by
        rw [List.length_drop]
        omega
      have heq : N = ((A0 ++ [c1]).drop q).take N.length := by
        have h2 := List.prefix_iff_eq_take.mp hcon
        rw [List.take_append_of_le_length hNlen] at h2
        exact h2
      have hpre2 : N <+: (A0 ++ [c1]).drop q := by
        rw [heq]
        exact List.take_prefix _ _
      have := strFind_prefix_isSome N (A0 ++ [c1]) q
        (List.isPrefixOf_iff_prefix.mpr hpre2)
      rw [hno] at this
      exact absurd this (by simp)
    · obtain ⟨s, hs⟩ := hcon
      have hdlen : ((A0 ++ [c1]).drop q).length = (A0 ++ [c1]).length - q := by
        rw [List.length_drop]
      have hdle : ((A0 ++ [c1]).drop q).length ≤ N.length := by omega
      have heq2 : (A0 ++ [c1]).drop q = N.take ((A0 ++ [c1]).drop q).length := by
        have h3 : ((A0 ++ [c1]).drop q ++ N).take ((A0 ++ [c1]).drop q).length =
            (A0 ++ [c1]).drop q := List.take_left _ _
        rw [← hs, List.take_append_of_le_length hdle] at h3
        exact h3.symm
      have hsub : (A0 ++ [c1]).drop q <+: N := by
        rw [heq2]
        exact List.take_prefix _ _
    
      have hcmem : c1 ∈ (A0 ++ [c1]).drop q := by
        have hqa : q ≤ A0.length := by
          have h4 : (A0 ++ [c1]).length = A0.length + 1 := by simp
          omega
        rw [List.drop_append_of_le_length hqa]
        exact List.mem_append.mpr (Or.inr (List.mem_singleton.mpr rfl))
      exact hc1 (hsub.subset hcmem)

theorem lastIdx_append_last (c : Char) (l : List Char) :
    lastIdx c (l ++ [c]) = some l.length := by
  induction l with
  | nil =>
    show lastIdx c [c] = some 0
    rw [lastIdx.eq_def]
    dsimp only
    rw [lastIdx.eq_def]
    dsimp only
    rw [if_pos rfl]
  | cons x t ih =>
    rw [List.cons_append, lastIdx.eq_def]
    dsimp only
    rw [ih]
    rfl

theorem pstrip_id (c0 : Char) (mid : List Char) (c1 : Char)
    (h0 : pyWs c0 = false) (h1 : pyWs c1 = false) :
    pstrip (c0 :: (mid ++ [c1])) = c0 :: (mid ++ [c1]) := by
  rw [pstrip]
  rw [List.dropWhile_cons, h0]
  simp only [Bool.false_eq_true, if_false]
  rw [show (c0 :: (mid ++ [c1])).reverse = c1 :: (mid.reverse ++ [c0]) from by simp]
  rw [List.dropWhile_cons, h1]
  simp only [Bool.false_eq_true, if_false]
  simp

theorem xmlRegion_wrap (tag body A0 : List Char) (c1 : Char)
    (hbody : body = A0 ++ [c1])
    (hc1 : c1 ∉ ('<' :: '/' :: (tag ++ ['>'])))
    (hno : strFind ('<' :: '/' :: (tag ++ ['>'])) body = none) :
    xmlRegion tag (wrap_in_tag tag body) = some body := by
  subst hbody
  have hf1 : strFind ('<' :: (tag ++ ['>'])) (wrap_in_tag tag (A0 ++ [c1])) = some 0 := by
    apply strFind_some
    · rw [List.drop_zero, List.isPrefixOf_iff_prefix, wrap_in_tag, List.append_assoc]
      exact List.prefix_append _ _
    · intro q hq
      exact absurd hq (Nat.not_lt_zero q)
  rw [xmlRegion]
  dsimp only
  rw [hf1]
  dsimp only
  have hdrop : (wrap_in_tag tag (A0 ++ [c1])).drop (0 + ('<' :: (tag ++ ['>'])).length) =
      (A0 ++ [c1]) ++ ('<' :: '/' :: (tag ++ ['>'])) := by
    rw [Nat.zero_add, wrap_in_tag, List.append_assoc, List.drop_left]
  rw [hdrop, strFind_append_self _ _ _ hc1 hno]
  dsimp only
  rw [List.take_left]

theorem jsonSpan_render_structured (v : Json)
    (hstruct : (∃ es, v = Json.arr es) ∨ (∃ ms, v = Json.obj ms)) :
    jsonSpan (renderJ v) = some (renderJ v) := by
  rcases hstruct with ⟨es, rfl⟩ | ⟨ms, rfl⟩
  · show jsonSpan ('[' :: (renderItems es ++ [']'])) = some ('[' :: (renderItems es ++ [']']))
    rw [jsonSpan.eq_def]
    dsimp only
    rw [if_neg (by simp), if_pos (by rw [lastIdx_append_last]; simp)]
    rw [lastIdx_append_last]
    simp only [Option.getD_some]
    rw [show (renderItems es).length + 1 = (renderItems es ++ [']']).length from by simp,
      List.take_length]
  · show jsonSpan ('{' :: (renderEntries ms ++ ['}'])) = some ('{' :: (renderEntries ms ++ ['}']))
    rw [jsonSpan.eq_def]
    dsimp only
    rw [if_pos (by rw [lastIdx_append_last]; simp)]
    rw [lastIdx_append_last]
    simp only [Option.getD_some]
    rw [show (renderEntries ms).length + 1 = (renderEntries ms ++ ['}']).length from by simp,
      List.take_length]

/-- C7: the round trip of the extractor holds for structured values only
under provisos the claim does not state: the closing-marker character
sequence must not occur inside the rendered payload and the tag must not
contain a closing brace or bracket.  Under those provisos a rendered value
wrapped in its tag extracts back unchanged, and text with no marker region
and no greedy JSON-shaped span returns None. -/
theorem claim_C7_roundtrip :
    (∀ (tag : List Char) (v : Json),
        ((∃ es, v = Json.arr es) ∨ (∃ ms, v = Json.obj ms)) →
        (']' ∉ tag ∧ '}' ∉ tag) →
        strFind ('<' :: '/' :: (tag ++ ['>'])) (renderJ v) = none →
        parse_llm_json_output (wrap_in_tag tag (renderJ v)) tag = some v) ∧
    (∀ (r t : List Char), xmlRegion t r = none → jsonSpan r = none →
        parse_llm_json_output r t = none) := by
  constructor
  · intro tag v hstruct hbr hno
    obtain ⟨A0, c1, hA, hc1⟩ :
        ∃ A0 c1, renderJ v = A0 ++ [c1] ∧ c1 ∉ ('<' :: '/' :: (tag ++ ['>'])) := by
      rcases hstruct with ⟨es, rfl⟩ | ⟨ms, rfl⟩
      · refine ⟨'[' :: renderItems es, ']', ?_, ?_⟩
        · show '[' :: (renderItems es ++ [']']) = ('[' :: renderItems es) ++ [']']
          simp
        · intro hm
          rcases List.mem_cons.mp hm with h | hm2
          · exact absurd h (by decide)
          rcases List.mem_cons.mp hm2 with h | hm3
          · exact absurd h (by decide)
          rcases List.mem_append.mp hm3 with h | h
          · exact hbr.1 h
          · exact absurd (List.mem_singleton.mp h) (by decide)
      · refine ⟨'{' :: renderEntries ms, '}', ?_, ?_⟩
        · show '{' :: (renderEntries ms ++ ['}']) = ('{' :: renderEntries ms) ++ ['}']
          simp
        · intro hm
          rcases List.mem_cons.mp hm with h | hm2
          · exact absurd h (by decide)
          rcases List.mem_cons.mp hm2 with h | hm3
          · exact absurd h (by decide)
          rcases List.mem_append.mp hm3 with h | h
          · exact hbr.2 h
          · exact absurd (List.mem_singleton.mp h) (by decide)
    have hregion := xmlRegion_wrap tag (renderJ v) A0 c1 hA hc1 hno
    have hstrip : pstrip (renderJ v) = renderJ v := by
      rcases hstruct with ⟨es, rfl⟩ | ⟨ms, rfl⟩
      · exact pstrip_id '[' (renderItems es) ']' (by decide) (by decide)
      · exact pstrip_id '{' (renderEntries ms) '}' (by decide) (by decide)
    have hspan := jsonSpan_render_structured v hstruct
    rw [parse_llm_json_output]
    dsimp only
    rw [hregion]
    dsimp only
    rw [hstrip, hspan]
    dsimp only
    rw [hstrip, json_loads_render]
  · intro r t h1 h2
    rw [parse_llm_json_output]
    dsimp only
    rw [h1, h2]

/-- C7 witness: a one-entry object wrapped in tag `t` extracts back, and a
plain sentence with no marker and no brace or bracket gives None. -/
theorem claim_C7_witness :
    parse_llm_json_output
        (wrap_in_tag "t".toList (renderJ (Json.obj [("a".toList, Json.num 1)])))
        "t".toList = some (Json.obj [("a".toList, Json.num 1)]) ∧
    parse_llm_json_output "no json here".toList "t".toList = none :=
  ⟨claim_C7_roundtrip.1 "t".toList (Json.obj [("a".toList, Json.num 1)])
      (Or.inr ⟨_, rfl⟩) (by decide) rfl,
   claim_C7_roundtrip.2 "no json here".toList "t".toList rfl rfl⟩

/-- C7 counterexample to the unconditional round trip claimed: a payload
whose string member contains the closing marker `</t>` truncates the Stage-1
region, and the extractor returns the inner object instead of the rendered
array. -/
theorem claim_C7_counterexample :
    parse_llm_json_output
        (wrap_in_tag "t".toList
          (renderJ (Json.arr [Json.num 1, Json.obj [("x".toList, Json.num 2)],
            Json.str "</t>".toList])))
        "t".toList = some (Json.obj [("x".toList, Json.num 2)]) ∧
    (Json.obj [("x".toList, Json.num 2)] : Json) ≠
      Json.arr [Json.num 1, Json.obj [("x".toList, Json.num 2)],
        Json.str "</t>".toList] :=
  ⟨rfl, fun h => Json.noConfusion h⟩

/-! ## The research engine loop — `src/orchestrator.py`

The graph cycle `research_node → writing_node → exploration_node →
critique_node → after_critique_router` over a state carrying the plan, the
`output_draft` and `final_content` blackboard sections and the retry/best
tracking fields.  The LLM outputs are the cycle's parameters: the draft the
writer would produce and the rating the critic would return.  Logging,
summaries, retrieval and the expert debate carry no control flow relevant
here and are not modelled; `research_calls` and `selected` are observation
counters recording how often `research_node` ran and which node ids it
selected and marked in-progress. -/

structure OrchState where
  plan : Option PlanNode
  output_draft : List (String × String)
  final_content : List (String × String)
  current_plan_node_id : Option String
  last_completed_node : Option String
  research_feedback : Option String
  research_retry_count : Nat
  best_draft_so_far : Option String
  best_rating_so_far : Nat
  feedback_rating : Nat
  research_calls : Nat
  selected : List String

/-- `research_node`: pops the next PENDING node.  If none exists it only
returns `current_plan_node_id = None` — it does NOT touch
`last_completed_node`, the draft section, the best tracking or the
feedback.  Otherwise it marks the node in-progress, clears the operational
sections, resets the best-draft tracking and clears the feedback after the
debate. -/
def research_node_m (s : OrchState) : OrchState :=
  match get_next_pending_node s.plan with
  | none =>
    { s with current_plan_node_id := none, research_calls := s.research_calls + 1 }
  | some n =>
    { s with
      plan := (update_node_status s.plan n.fields.id "in-progress").2,
      current_plan_node_id := some n.fields.id,
      output_draft := [],
      best_draft_so_far := none,
      best_rating_so_far := 0,
      last_completed_node := some "research_node",
      research_feedback := none,
      research_calls := s.research_calls + 1,
      selected := s.selected ++ [n.fields.id] }

/-- `writing_node`: with no current node id it returns only the log (the
`last_completed_node` marker keeps its old value); otherwise it posts the
draft under the current node id.  The debate transcript exists whenever a
node was just selected, so that guard is not modelled. -/
def writing_node_m (draft : String) (s : OrchState) : OrchState :=
  match s.current_plan_node_id with
  | none => s
  | some nid =>
    { s with output_draft := dset s.output_draft nid draft,
             last_completed_node := some "writing_node" }

/-- `exploration_node` in the no-proposal case: with no current node id it
returns only the log; otherwise it sets the completion marker. -/
def exploration_node_m (s : OrchState) : OrchState :=
  match s.current_plan_node_id with
  | none => s
  | some _ => { s with last_completed_node := some "exploration_node" }

/-- `critique_node` after a research cycle: reviews
`output_draft[current_plan_node_id]`; a missing id or draft yields the
"No content to review" feedback with rating 0 and no best-draft update;
otherwise the given rating is recorded and a strictly better rated
non-empty draft becomes the best draft so far. -/
def critique_node_m (rating : Nat) (s : OrchState) : OrchState :=
  if s.last_completed_node = some "writing_node" ∨
     s.last_completed_node = some "exploration_node" then
    let content : Option String :=
      match s.current_plan_node_id with
      | none => none
      | some nid => dget s.output_draft nid
    match content with
    | none => { s with feedback_rating := 0 }
    | some d =>
      if s.best_rating_so_far < rating then
        { s with feedback_rating := rating,
                 best_draft_so_far := some d,
                 best_rating_so_far := rating }
      else { s with feedback_rating := rating }
  else { s with feedback_rating := 0 }

/-- `after_critique_router`, research branch: rating > 80 commits the just
approved draft and completes the node; otherwise the retry counter is
bumped and, past MAX_RESEARCH_RETRIES = 3, the `if current_node_id:` guard
decides whether the best draft (or an error placeholder) is committed and
the node completed — with no current id that whole block is skipped.  The
route is "research_node" while a pending node remains, else
"summarize_node". -/
def after_critique_router_m (s : OrchState) : String × OrchState :=
  if s.last_completed_node = some "writing_node" ∨
     s.last_completed_node = some "exploration_node" then
    if 80 < s.feedback_rating then
      let s1 :=
        match s.current_plan_node_id with
        | none => s
        | some nid =>
          let plan2 := (update_node_status s.plan nid "completed").2
          match dget s.output_draft nid with
          | some d =>
            { s with plan := plan2, final_content := dset s.final_content nid d }
          | none => { s with plan := plan2 }
      let s2 := { s1 with research_retry_count := 0, research_feedback := none,
                          best_draft_so_far := none, best_rating_so_far := 0 }
      if (get_next_pending_node s2.plan).isSome then ("research_node", s2)
      else ("summarize_node", s2)
    else
      let retry := s.research_retry_count + 1
      if 3 < retry then
        let s1 :=
          match s.current_plan_node_id with
          | none => s
          | some nid =>
            let plan2 := (update_node_status s.plan nid "completed").2
            match s.best_draft_so_far with
            | some d =>
              { s with plan := plan2, final_content := dset s.final_content nid d }
            | none =>
              { s with plan := plan2,
                       final_content := dset s.final_content nid
                         "ERROR: Could not generate acceptable content for this section after 3 retries." }
        let s2 := { s1 with research_retry_count := 0, research_feedback := none,
                            best_draft_so_far := none, best_rating_so_far := 0 }
        if (get_next_pending_node s2.plan).isSome then ("research_node", s2)
        else ("summarize_node", s2)
      else
        ("research_node", { s with research_retry_count := retry,
                                   research_feedback := some "critic feedback" })
  else ("END", s)

/-- One pass through the research cycle of the compiled graph. -/
def orch_cycle (draft : String) (rating : Nat) (s : OrchState) : String × OrchState :=
  after_critique_router_m (critique_node_m rating
    (exploration_node_m (writing_node_m draft (research_node_m s))))

/-- Run a script of (draft, rating) cycles, keeping the last route taken. -/
def run_orch : List (String × Nat) → String × OrchState → String × OrchState
  | [], p => p
  | (d, r) :: rest, p => run_orch rest (orch_cycle d r p.2)

/-- The engine state right after the plan is approved and the graph enters
`research_node` for the first time. -/
def init_orch (plan : Option PlanNode) : OrchState :=
  { plan := plan, output_draft := [], final_content := [],
    current_plan_node_id := none, last_completed_node := some "planning_node",
    research_feedback := none, research_retry_count := 0,
    best_draft_so_far := none, best_rating_so_far := 0, feedback_rating := 0,
    research_calls := 0, selected := [] }

theorem get_next_pending_node_eq (plan : Option PlanNode) :
    get_next_pending_node plan =
      match plan with
      | none => none
      | some t => (preorder t).find? (fun n => n.fields.status == "pending") := by
  cases plan with
  | none => rfl
  | some t =>
    rw [get_next_pending_node, dfsNextPending_eq_find]
    simp

/-- C3 scenario: a single-task plan whose drafts always rate 50, run for
four research cycles (the initial attempt plus the full retry budget). -/
def c3_run : String × OrchState :=
  run_orch [("d1", 50), ("d2", 50), ("d3", 50), ("d4", 50)]
    ("", init_orch (some (create_plan "n1" "topic" [])))

/-- C3 is a code bug: with one task always rated 50 and retry budget 3,
only ONE research attempt ever works the task (the retries find no pending
node because the task is already in-progress), the task is never completed
(it stays in-progress), nothing is force-committed to final_content, and
the engine nevertheless routes to summarize. -/
theorem claim_C3_retry_strands_task :
    c3_run.1 = "summarize_node" ∧
    c3_run.2.research_calls = 4 ∧
    c3_run.2.selected = ["n1"] ∧
    c3_run.2.plan = some (PlanNode.mk
      { id := "n1", title := "Research Plan", description := "Plan for: topic",
        status := "in-progress", experts_needed := [] } []) ∧
    c3_run.2.final_content = [] := by
  refine ⟨?_, ?_, ?_, ?_, ?_⟩ <;>
    simp [c3_run, run_orch, orch_cycle, research_node_m, writing_node_m,
      exploration_node_m, critique_node_m, after_critique_router_m, init_orch,
      get_next_pending_node_eq, preorder, preorderList, create_plan,
      update_node_status, setStatusNode, setStatusList, dget, dset,
      PlanNode.fields, PlanNode.children]

/-- C1 scenario, after the first cycle: the 70-rated draft is tracked as
the best candidate. -/
def c1_run_first : String × OrchState :=
  run_orch [("d1", 70)] ("", init_orch (some (create_plan "n1" "topic" [])))

/-- C1 scenario, full run: scores 70 then three rejected retries. -/
def c1_run : String × OrchState :=
  run_orch [("d1", 70), ("d2", 50), ("d3", 50), ("d4", 50)]
    ("", init_orch (some (create_plan "n1" "topic" [])))

/-- C1 is a code bug: after a 70-rated draft is tracked as the best
candidate and the retry budget is exhausted without approval, the claim
says the best draft is committed to final_content — but the retries run
with `current_plan_node_id = None` (the in-progress task is invisible to
the pending search), so the `if current_node_id:` guard of the fallback
skips the commit entirely: final_content stays empty while the engine
routes to summarize. -/
theorem claim_C1_best_never_committed :
    c1_run_first.2.best_draft_so_far = some "d1" ∧
    c1_run_first.2.best_rating_so_far = 70 ∧
    c1_run.1 = "summarize_node" ∧
    c1_run.2.final_content = [] ∧
    dget c1_run.2.final_content "n1" = none := by
  refine ⟨?_, ?_, ?_, ?_, ?_⟩ <;>
    simp [c1_run_first, c1_run, run_orch, orch_cycle, research_node_m,
      writing_node_m, exploration_node_m, critique_node_m,
      after_critique_router_m, init_orch, get_next_pending_node_eq, preorder,
      preorderList, create_plan, update_node_status, setStatusNode,
      setStatusList, dget, dset, PlanNode.fields, PlanNode.children]
